import Mathlib

/-!
Shallow embedding of the `ml-engine` analysis pipeline of the
brand-sentiment-analysis repository, together with proofs about it.

Python strings are modelled as `List Char` where character-level rewriting
matters (the preprocessing module) and as `String` elsewhere; Python floats
are modelled as exact rationals `ℚ`; Python character classes (`\s`, `\w`,
regex literals) are modelled over ASCII, which is the alphabet the pipeline's
own cleaning step restricts to.  External collaborators (the NLTK stop-word
corpus, the VADER lexicon scorer, scikit-learn's vectorizer and K-Means, the
generative provider, uuid generation) are passed in as explicit function
parameters ("oracles"); every branch of the repository's own code is
translated faithfully, including Python truthiness tests on lists and dicts.

Recursive scanners are written with an explicit fuel argument (initialised
to more than the input length by their wrappers) so that every definition is
structurally recursive and kernel-reducible; the fuel-exhaustion branch
returns the remaining input unchanged and is never reached from a wrapper.
-/

namespace BrandSA

/-! ## Character classes (ASCII model of Python's `\s`, `\w`, regex classes) -/

/-- The whitespace characters of Python's `\s` class (ASCII fragment). -/
def spaceChars : List Char := [' ', '\t', '\n', '\r', '\x0b', '\x0c']

/-- Python whitespace class `\s` (ASCII fragment). -/
def pyIsSpace (c : Char) : Bool := decide (c ∈ spaceChars)

/-- The 26 lowercase letters. -/
def lowerChars : List Char :=
  ['a', 'b', 'c', 'd', 'e', 'f', 'g', 'h', 'i', 'j', 'k', 'l', 'm',
   'n', 'o', 'p', 'q', 'r', 's', 't', 'u', 'v', 'w', 'x', 'y', 'z']

/-- The 26 uppercase letters. -/
def upperChars : List Char :=
  ['A', 'B', 'C', 'D', 'E', 'F', 'G', 'H', 'I', 'J', 'K', 'L', 'M',
   'N', 'O', 'P', 'Q', 'R', 'S', 'T', 'U', 'V', 'W', 'X', 'Y', 'Z']

/-- The 10 digits. -/
def digitChars : List Char :=
  ['0', '1', '2', '3', '4', '5', '6', '7', '8', '9']

/-- The character class `[a-zA-Z0-9]` of `clean_text`'s special-character
rule, given by its exact extension. -/
def alnumChars : List Char := lowerChars ++ upperChars ++ digitChars

/-- Membership test for `[a-zA-Z0-9]`. -/
def isAlnumAscii (c : Char) : Bool := decide (c ∈ alnumChars)

/-- The lowercase letters and digits: the characters a cleaned text is
built from (besides spaces). -/
def lowAlChars : List Char := lowerChars ++ digitChars

/-- Python word-character class `\w` (ASCII fragment). -/
def pyIsWord (c : Char) : Bool := isAlnumAscii c || c = '_'

/-- Python `str.lower()` (ASCII fragment, as an explicit table): uppercase
letters map to their lowercase counterparts, everything else is unchanged. -/
def pyLower (c : Char) : Char :=
  match c with
  | 'A' => 'a' | 'B' => 'b' | 'C' => 'c' | 'D' => 'd' | 'E' => 'e'
  | 'F' => 'f' | 'G' => 'g' | 'H' => 'h' | 'I' => 'i' | 'J' => 'j'
  | 'K' => 'k' | 'L' => 'l' | 'M' => 'm' | 'N' => 'n' | 'O' => 'o'
  | 'P' => 'p' | 'Q' => 'q' | 'R' => 'r' | 'S' => 's' | 'T' => 't'
  | 'U' => 'u' | 'V' => 'v' | 'W' => 'w' | 'X' => 'x' | 'Y' => 'y'
  | 'Z' => 'z' | c => c

/-- Head of the list exists and is a non-space character (the `\S+` requirement
after a URL marker). -/
def nonSpaceHead : List Char → Bool
  | [] => false
  | c :: _ => !pyIsSpace c

/-- Head of the list exists and is a word character. -/
def wordHead : List Char → Bool
  | [] => false
  | c :: _ => pyIsWord c

/-! ## `preprocessing.py`: `clean_text` -/

/-- One scanning step of `re.sub(r'http\S+|www\S+', '', text)`: does a match
start at this position?  The alternation tries `http\S+` first, then `www\S+`;
each needs its literal marker followed by at least one non-space character. -/
def urlTrigger (s : List Char) : Bool :=
  ("http".data.isPrefixOf s && nonSpaceHead (s.drop 4)) ||
    ("www".data.isPrefixOf s && nonSpaceHead (s.drop 3))

/-- The remainder of the input after the URL match at this position:
the marker and the greedy `\S+` run are consumed. -/
def urlSkip (s : List Char) : List Char :=
  if "http".data.isPrefixOf s then (s.drop 4).dropWhile (fun c => !pyIsSpace c)
  else (s.drop 3).dropWhile (fun c => !pyIsSpace c)

/-- Fuel-indexed scanner for `re.sub(r'http\S+|www\S+', '', text)`. -/
def urlSubF : Nat → List Char → List Char
  | 0, s => s
  | _, [] => []
  | fuel + 1, c :: cs =>
    if urlTrigger (c :: cs) then urlSubF fuel (urlSkip (c :: cs))
    else c :: urlSubF fuel cs

/-- `re.sub(r'http\S+|www\S+', '', text)` from `clean_text`. -/
def urlSub (s : List Char) : List Char := urlSubF (s.length + 1) s

/-- Fuel-indexed scanner for `re.sub(r'@\w+', '', text)`. -/
def mentionSubF : Nat → List Char → List Char
  | 0, s => s
  | _, [] => []
  | fuel + 1, c :: cs =>
    if c = '@' && wordHead cs then mentionSubF fuel (cs.dropWhile pyIsWord)
    else c :: mentionSubF fuel cs

/-- `re.sub(r'@\w+', '', text)` from `clean_text`. -/
def mentionSub (s : List Char) : List Char := mentionSubF (s.length + 1) s

/-- Fuel-indexed scanner for `re.sub(r'#(\w+)', r'\1', text)`: the `#` is
dropped, the word run is kept. -/
def hashtagSubF : Nat → List Char → List Char
  | 0, s => s
  | _, [] => []
  | fuel + 1, c :: cs =>
    if c = '#' && wordHead cs then
      cs.takeWhile pyIsWord ++ hashtagSubF fuel (cs.dropWhile pyIsWord)
    else c :: hashtagSubF fuel cs

/-- `re.sub(r'#(\w+)', r'\1', text)` from `clean_text`. -/
def hashtagSub (s : List Char) : List Char := hashtagSubF (s.length + 1) s

/-- `re.sub(r'[^a-zA-Z0-9\s]', ' ', text)` from `clean_text`. -/
def specialSub (s : List Char) : List Char :=
  s.map (fun c => if isAlnumAscii c || pyIsSpace c then c else ' ')

/-- Fuel-indexed scanner for `re.sub(r'\s+', ' ', text)`: every maximal
whitespace run becomes a single `' '`. -/
def wsCollapseF : Nat → List Char → List Char
  | 0, s => s
  | _, [] => []
  | fuel + 1, c :: cs =>
    if pyIsSpace c then ' ' :: wsCollapseF fuel (cs.dropWhile pyIsSpace)
    else c :: wsCollapseF fuel cs

/-- `re.sub(r'\s+', ' ', text)` from `clean_text`. -/
def wsCollapse (s : List Char) : List Char := wsCollapseF (s.length + 1) s

/-- Python `str.strip()`: remove leading and trailing whitespace. -/
def pyStrip (s : List Char) : List Char :=
  ((s.dropWhile pyIsSpace).reverse.dropWhile pyIsSpace).reverse

/-- `clean_text` from `preprocessing.py`: lowercase, drop URLs, drop
`@mentions`, unwrap hashtags, space out special characters, collapse and trim
whitespace; empty (falsy) input returns the empty string. -/
def clean_text (s : List Char) : List Char :=
  if s = [] then []
  else pyStrip (wsCollapse (specialSub (hashtagSub (mentionSub (urlSub (s.map pyLower))))))

/-! ## `preprocessing.py`: `tokenize` and `remove_stop_words` -/

/-- One `foldr` step of whitespace splitting: build the current token or,
at a whitespace character, flush it (dropping empty fragments, as Python's
`str.split()` does). -/
def splitWsStep (c : Char) (acc : List Char × List (List Char)) :
    List Char × List (List Char) :=
  if pyIsSpace c then ([], if acc.1.isEmpty then acc.2 else acc.1 :: acc.2)
  else (c :: acc.1, acc.2)

/-- Python `str.split()` with no argument: split on whitespace runs, never
producing empty tokens. -/
def splitWs (s : List Char) : List (List Char) :=
  let r := s.foldr splitWsStep ([], [])
  if r.1.isEmpty then r.2 else r.1 :: r.2

/-- `tokenize` from `preprocessing.py`. -/
def tokenize (s : List Char) : List (List Char) :=
  if s = [] then [] else splitWs s

/-- `remove_stop_words` from `preprocessing.py`: keep tokens that are not in
the stop-word set and are longer than 2 characters.  The combined stop-word
set (NLTK English corpus plus `DOMAIN_STOP_WORDS`) is loaded from an external
corpus at runtime, so it is a parameter here. -/
def remove_stop_words (sw : List (List Char)) (tokens : List (List Char)) :
    List (List Char) :=
  tokens.filter (fun t => decide (t ∉ sw) && decide (t.length > 2))

/-- `DOMAIN_STOP_WORDS` from `preprocessing.py`. -/
def DOMAIN_STOP_WORDS : List (List Char) :=
  ["truck".data, "trucks".data, "trucker".data, "truckers".data, "trucking".data,
   "peterbilt".data, "pete".data, "paccar".data,
   "just".data, "like".data, "got".data, "get".data, "would".data, "could".data,
   "really".data, "one".data, "also".data, "even".data, "much".data, "still".data,
   "way".data, "well".data]

/-- The normalization pipeline of the spec's Normalizer contract:
`clean_text`, whitespace tokenization, stop-word and minimum-length filtering. -/
def normalize (sw : List (List Char)) (s : List Char) : List (List Char) :=
  remove_stop_words sw (tokenize (clean_text s))

/-- Space-joining of a token sequence (`' '.join(tokens)`), the form in which
a token sequence re-enters the pipeline. -/
def joinTokens : List (List Char) → List Char
  | [] => []
  | [t] => t
  | t :: ts => t ++ ' ' :: joinTokens ts

/-! ## `sentiment.py` and `sentiment_gemini.py` -/

/-- A four-component sentiment vector, the dictionary shape produced by every
scoring path of `sentiment.py` and `sentiment_gemini.py`. -/
structure Sentiment where
  compound : ℚ
  positive : ℚ
  negative : ℚ
  neutral : ℚ
deriving DecidableEq

/-- The hard-coded neutral vector returned by the empty-text short-circuits. -/
def neutralVec : Sentiment := ⟨0, 0, 0, 1⟩

/-- VADER's `polarity_scores` value on text containing no scorable token:
its `score_valence` returns all four components as `0.0` when the sentiments
list is empty, so blank text maps to the all-zero vector (note `neu = 0.0`,
not `1.0`).  This models the external NLTK library's behaviour, which the
repository calls but does not define. -/
def vaderZeroVec : Sentiment := ⟨0, 0, 0, 0⟩

/-- Python blank test `not text or not text.strip()`: true on the empty
string and on whitespace-only strings. -/
def isBlank (s : String) : Bool := s.data.all pyIsSpace

/-- A document as the sentiment endpoints see it: a post dictionary whose
`content` field is read; all other fields are opaque pass-through (modelled
by `id`). -/
structure Post where
  id : String
  content : String
deriving DecidableEq

/-- A post dictionary after `'sentiment'` has been attached
(`{**post, 'sentiment': s}`). -/
structure ScoredPost where
  post : Post
  sentiment : Sentiment
deriving DecidableEq

/-- `_analyze_sentiment_vader` from `sentiment.py`: calls the (external,
oracle-modelled) VADER analyzer on the text and repackages its four scores.
There is no empty-text short-circuit in this function. -/
def analyze_sentiment_vader (vader : String → Sentiment) (text : String) :
    Sentiment :=
  vader text

/-- `analyze_sentiment_gemini` from `sentiment_gemini.py`: `none` when the
provider is unavailable; blank text short-circuits to the neutral vector;
otherwise the provider call, retry loop, JSON parse and field extraction are
modelled by the oracle `single` (`none` = any failure path). -/
def analyze_sentiment_gemini (geminiOk : Bool)
    (single : String → Option Sentiment) (text : String) : Option Sentiment :=
  if !geminiOk then none
  else if isBlank text then some neutralVec
  else single text

/-- `analyze_sentiment` from `sentiment.py`: blank text short-circuits to the
neutral vector; otherwise prefer the generative scorer when available
(a falsy, i.e. `None`, result falls through), else the VADER fallback. -/
def analyze_sentiment (geminiOk : Bool) (single : String → Option Sentiment)
    (vader : String → Sentiment) (text : String) : Sentiment :=
  if isBlank text then neutralVec
  else if geminiOk then
    match analyze_sentiment_gemini geminiOk single text with
    | some r => r
    | none => analyze_sentiment_vader vader text
  else analyze_sentiment_vader vader text

/-- Python truthiness of an `Optional[List]` result: `None` and the empty
list are both falsy. -/
def optTruthy : Option (List α) → Option (List α)
  | some [] => none
  | r => r

/-- The batch-of-5 slicing `posts[i:i+5]` of `analyze_posts_sentiment_gemini`'s
loop, written out structurally. -/
def chunk5 : List Post → List (List Post)
  | [] => []
  | a :: b :: c :: d :: e :: rest => [a, b, c, d, e] :: chunk5 rest
  | l => [l]

/-- `_analyze_batch` from `sentiment_gemini.py`: empty input returns `[]`;
otherwise the provider call and JSON parse are the oracle `batchO` (`none` =
failure), and a parsed array whose length differs from the batch size is
rejected; on success each post is paired with its entry in order. -/
def analyzeBatch (batchO : List Post → Option (List Sentiment))
    (posts : List Post) : Option (List ScoredPost) :=
  if posts.isEmpty then some []
  else
    (batchO posts).bind (fun sentiments =>
      if sentiments.length = posts.length then
        some (List.zipWith (fun p s => ScoredPost.mk p s) posts sentiments)
      else none)

/-- The per-post fallback loop inside `analyze_posts_sentiment_gemini`: each
post of the failed batch is scored individually; the first individual failure
aborts the whole gemini path. -/
def perPostGemini (geminiOk : Bool) (single : String → Option Sentiment) :
    List Post → Option (List ScoredPost)
  | [] => some []
  | p :: ps =>
    match analyze_sentiment_gemini geminiOk single p.content with
    | some s => (perPostGemini geminiOk single ps).map (ScoredPost.mk p s :: ·)
    | none => none

/-- The batch loop of `analyze_posts_sentiment_gemini`: a truthy batch result
is appended; a falsy one falls back to per-post scoring of that batch. -/
def processBatches (geminiOk : Bool)
    (batchO : List Post → Option (List Sentiment))
    (single : String → Option Sentiment) :
    List (List Post) → Option (List ScoredPost)
  | [] => some []
  | b :: bs =>
    match optTruthy (analyzeBatch batchO b) with
    | some rs => (processBatches geminiOk batchO single bs).map (rs ++ ·)
    | none =>
      match perPostGemini geminiOk single b with
      | some rs => (processBatches geminiOk batchO single bs).map (rs ++ ·)
      | none => none

/-- `analyze_posts_sentiment_gemini` from `sentiment_gemini.py`. -/
def analyze_posts_sentiment_gemini (geminiOk : Bool)
    (batchO : List Post → Option (List Sentiment))
    (single : String → Option Sentiment) (posts : List Post) :
    Option (List ScoredPost) :=
  if !geminiOk then none
  else processBatches geminiOk batchO single (chunk5 posts)

/-- `analyze_posts_sentiment` from `sentiment.py`: a truthy gemini batch
result is returned as-is; otherwise every post goes through
`_analyze_sentiment_vader` on its `content`. -/
def analyze_posts_sentiment (geminiOk : Bool)
    (batchO : List Post → Option (List Sentiment))
    (single : String → Option Sentiment) (vader : String → Sentiment)
    (posts : List Post) : List ScoredPost :=
  let fallback :=
    posts.map (fun p => ScoredPost.mk p (analyze_sentiment_vader vader p.content))
  if geminiOk then
    match optTruthy (analyze_posts_sentiment_gemini geminiOk batchO single posts) with
    | some rs => rs
    | none => fallback
  else fallback

/-! ## `sentiment.py`: aggregation and classification -/

/-- A post as the aggregator sees it: only an optional `sentiment` field is
read (`p.get('sentiment', {}).get('compound', 0.0)`). -/
structure APost where
  sentiment : Option Sentiment
deriving DecidableEq

/-- `aggregate_cluster_sentiment` from `sentiment.py`: `0.0` on an empty
list, otherwise the sum of compound values (missing vectors contribute `0.0`)
divided by the list length. -/
def aggregate_cluster_sentiment (posts : List APost) : ℚ :=
  if posts.isEmpty then 0
  else (posts.map (fun p => ((p.sentiment.map Sentiment.compound).getD 0))).sum /
    posts.length

/-- `classify_sentiment` from `sentiment.py`. -/
def classify_sentiment (score : ℚ) : String :=
  if score ≥ 3 / 10 then "positive"
  else if score ≤ -(3 / 10) then "negative"
  else "neutral"

/-- The invariant claimed for all sentiment vectors: non-negative components
and a compound value in the interval from -1 to 1. -/
def BoundedVec (s : Sentiment) : Prop :=
  0 ≤ s.positive ∧ 0 ≤ s.negative ∧ 0 ≤ s.neutral ∧
    -1 ≤ s.compound ∧ s.compound ≤ 1

instance (s : Sentiment) : Decidable (BoundedVec s) := by
  unfold BoundedVec; infer_instance

/-! ## Decimal printing of naturals (Python `str(int)` inside f-strings) -/

/-- The decimal digit characters. -/
def digitCh (d : Nat) : Char :=
  match d with
  | 0 => '0' | 1 => '1' | 2 => '2' | 3 => '3' | 4 => '4'
  | 5 => '5' | 6 => '6' | 7 => '7' | 8 => '8' | _ => '9'

/-- Little-endian decimal digits of `n`, with explicit fuel (structural and
kernel-reducible; any fuel at least `n` is exact). -/
def natDigitsF : Nat → Nat → List Nat
  | _, 0 => []
  | 0, _ + 1 => []
  | fuel + 1, n + 1 => (n + 1) % 10 :: natDigitsF fuel ((n + 1) / 10)

/-- Decimal representation of a natural number, as Python's `str` renders an
`int` inside an f-string. -/
def natDecimal (n : Nat) : String :=
  if n = 0 then "0" else String.mk (((natDigitsF n n).reverse).map digitCh)

/-! ## `clustering.py`: taxonomy table and `match_cluster_to_taxonomy` -/

/-- One entry of `CLUSTER_TAXONOMY`. -/
structure TaxEntry where
  key : String
  keywords : List String
  label : String
  description : String
deriving DecidableEq

/-- `CLUSTER_TAXONOMY` from `clustering.py`, in dictionary insertion order
(Python preserves it during iteration). -/
def CLUSTER_TAXONOMY : List TaxEntry :=
  [⟨"ev_adoption",
    ["579ev", "ev", "electric", "battery", "charging", "range",
     "zero", "emission", "350kw", "charger", "kwh", "bev"],
    "EV Adoption",
    "Electric vehicle adoption, charging infrastructure, and range concerns"⟩,
   ⟨"driver_comfort",
    ["sleeper", "interior", "ergonomic", "seat", "comfort", "80",
     "inch", "platinum", "cab", "mattress", "space", "loft", "ultraloft"],
    "Driver Comfort",
    "Cab interior, sleeper features, and driver ergonomics"⟩,
   ⟨"uptime_reliability",
    ["engine", "service", "dealer", "breakdown", "repair", "uptime",
     "reliable", "reliability", "miles", "maintenance", "derate", "shop"],
    "Uptime & Reliability",
    "Mechanical reliability, service quality, and dealer experience"⟩,
   ⟨"model_demand",
    ["589", "579", "567", "389", "wait", "order", "backlog", "delivery",
     "availability", "new", "model", "spec", "ordered", "months"],
    "Model Demand",
    "Model availability, wait times, and ordering experience"⟩,
   ⟨"technology_features",
    ["smartlinq", "infotainment", "navigation", "led", "headlight", "dashboard",
     "apu", "tech", "technology", "system", "display", "diagnostics", "alert"],
    "Technology & Features",
    "Truck technology, telematics, and modern features"⟩,
   ⟨"brand_comparison",
    ["kenworth", "freightliner", "volvo", "mack", "international", "switch",
     "compare", "comparison", "versus", "better", "competition", "brand"],
    "Brand Comparison",
    "Comparisons with competing truck brands and switching decisions"⟩,
   ⟨"pricing_value",
    ["price", "cost", "expensive", "cheap", "value", "worth", "money",
     "rebate", "hvip", "incentive", "roi", "investment", "budget", "afford"],
    "Pricing & Value",
    "Truck pricing, incentives, and value for money discussions"⟩,
   ⟨"build_quality",
    ["quality", "build", "premium", "materials", "craftsmanship", "weld",
     "finish", "paint", "chrome", "durable", "solid", "construction"],
    "Build Quality",
    "Manufacturing quality, materials, and craftsmanship"⟩]

/-- Python substring membership `needle in haystack` on strings. -/
def pySubstr (needle haystack : String) : Bool :=
  go needle.data haystack.data
where
  /-- Check the needle against every suffix of the haystack. -/
  go (n : List Char) : List Char → Bool
    | [] => n.isEmpty
    | c :: cs => n.isPrefixOf (c :: cs) || go n cs

/-- The inner candidate test of `match_cluster_to_taxonomy`'s scoring loop:
`tax_kw in kw or kw in tax_kw` for some taxonomy keyword, with the `break`
making each candidate count at most once. -/
def candidateHits (taxKws : List String) (kw : String) : Bool :=
  taxKws.any (fun t => pySubstr t kw || pySubstr kw t)

/-- Python `str.lower()` on whole strings, at the character-data level
(ASCII-faithful, and kernel-reducible unlike position-based string maps). -/
def strLower (s : String) : String := String.mk (s.data.map Char.toLower)

/-- The per-entry score of `match_cluster_to_taxonomy`: scanning the
lowercased candidate list in order, a candidate at 0-based position `i` that
hits the entry's (lowercased) keyword set adds `(N - i) / N` for `N` the
candidate count. -/
def taxScore (keywords : List String) (e : TaxEntry) : ℚ :=
  let kl := keywords.map strLower
  let tset := e.keywords.map strLower
  let n := keywords.length
  (kl.enum.map (fun p =>
    if candidateHits tset p.2 then ((n : ℚ) - (p.1 : ℚ)) / (n : ℚ) else 0)).sum

/-- Modelled from the spec: the scoring formula as §4.4 words it — for each
candidate position `i` from `0` to `N - 1`, if the candidate at `i` contains
or is contained by some keyword string of the entry (case-insensitively),
add `(N - i) / N`.  Used to cross-check the implementation's `taxScore`. -/
def specScore (keywords : List String) (e : TaxEntry) : ℚ :=
  ((List.range keywords.length).map (fun i =>
    if candidateHits (e.keywords.map strLower)
        ((keywords.map strLower).getD i "")
    then ((keywords.length : ℚ) - (i : ℚ)) / (keywords.length : ℚ) else 0)).sum

/-- One iteration of the taxonomy loop of `match_cluster_to_taxonomy`:
entries with used keys are skipped, and an entry replaces the running best
only with a strictly higher score. -/
def taxStep (keywords exclude : List String)
    (st : Option (String × String) × ℚ) (e : TaxEntry) :
    Option (String × String) × ℚ :=
  if e.key ∈ exclude then st
  else if taxScore keywords e > st.2 then (some (e.key, e.label), taxScore keywords e)
  else st

/-- The best-match fold of `match_cluster_to_taxonomy` (`best_score` starts
at `0`, `best_match` at `None`). -/
def bestTaxMatch (keywords : List String) (exclude : List String) :
    Option (String × String) × ℚ :=
  CLUSTER_TAXONOMY.foldl (taxStep keywords exclude) (none, 0)

/-- The fallback key of `"general_" ++ str c`. -/
def genKey (c : Nat) : String := "general_" ++ natDecimal c

/-- The `while general_key in exclude` loop of the fallback branch, with
explicit fuel; the state is the current candidate key and the counter value
after its construction. -/
def fallbackLoop (exclude : List String) : Nat → String → Nat → String × Nat
  | 0, key, counter => (key, counter)
  | fuel + 1, key, counter =>
    if key ∈ exclude then fallbackLoop exclude fuel (genKey counter) (counter + 1)
    else (key, counter)

/-- The fallback branch of `match_cluster_to_taxonomy`: starting from
`'general'` and `counter = 1`, bump the numeric suffix until the key is
unused; the label is suffixed with the final counter value when the plain
`'general'` key was unavailable.  Fuel `exclude.length + 1` always suffices
(proved below), matching the Python loop that runs unboundedly. -/
def generalFallback (exclude : List String) : String × String :=
  let r := fallbackLoop exclude (exclude.length + 1) "general" 1
  (r.1, if r.1 = "general" then "General Discussion"
        else "General Discussion " ++ natDecimal r.2)

/-- `match_cluster_to_taxonomy` from `clustering.py`: the best-scoring unused
taxonomy entry when its score beats `0.5`, else the suffixed general
fallback.  The used-key set is modelled as a list queried by membership. -/
def match_cluster_to_taxonomy (keywords : List String) (exclude : List String) :
    String × String :=
  match bestTaxMatch keywords exclude with
  | (some p, bs) => if bs > 1 / 2 then p else generalFallback exclude
  | (none, _) => generalFallback exclude

/-! ## `clustering.py`: `cluster_posts` -/

/-- A post as `cluster_posts` sees it: an `id`, a `tokens` list, and the
`clusterIdx` and `clusterId` fields added during clustering. -/
structure CPost where
  id : String
  tokens : List String
  clusterIdx : Option Nat := none
  clusterId : Option String := none
deriving DecidableEq

instance : Inhabited CPost := ⟨⟨"", [], none, none⟩⟩

/-- The external collaborators of `cluster_posts`: scikit-learn's TF-IDF
vectorizer (success flag of `fit_transform`), K-Means (`fit_predict` labels
for the valid documents and the feature names with centroid ordering, which
together yield the top-15 keyword list per cluster index), and uuid
generation.  All are functions of the valid-document list, reflecting that
they are deterministic per request. -/
structure ClusterOracle where
  tfidfOk : List String → Bool
  fitLabels : List String → List Nat
  centroidKeywords : List String → Nat → List String
  freshId : Nat → String

/-- A returned cluster object: either the structured insufficient-data
pseudo-cluster or a real cluster dictionary. -/
inductive ClusterOut where
  | pseudo (reason message : String)
  | real (id taxonomyId label description : String) (keywords : List String)
      (postCount : Nat) (postIds : List String)
deriving DecidableEq

/-- The taxonomy key carried by a real cluster. -/
def ClusterOut.taxId : ClusterOut → Option String
  | .pseudo _ _ => none
  | .real _ t _ _ _ _ _ => some t

/-- The document string `' '.join(p.get('tokens', []))` of each post. -/
def documentsOf (posts : List CPost) : List String :=
  posts.map (fun p => String.intercalate " " p.tokens)

/-- Python truthiness of `doc.strip()`: the document has a non-space
character. -/
def strNonBlank (s : String) : Bool := s.data.any (fun c => !pyIsSpace c)

/-- The indices of documents surviving the empty-document filter
(`valid_indices`). -/
def validIndices (posts : List CPost) : List Nat :=
  (((documentsOf posts).enum).filter (fun p => strNonBlank p.2)).map Prod.fst

/-- The surviving documents themselves (`valid_documents`). -/
def validDocuments (posts : List CPost) : List String :=
  (validIndices posts).map (fun i => (documentsOf posts).getD i "")

/-- The `insufficient_posts` pseudo-cluster with its formatted message. -/
def insufficientPosts (k : Nat) : ClusterOut :=
  .pseudo "insufficient_posts"
    ("Need at least " ++ natDecimal k ++ " posts for clustering")

/-- The pseudo-cluster for too few non-empty documents. -/
def insufficientVocabFilter : ClusterOut :=
  .pseudo "insufficient_vocabulary"
    "Not enough non-empty tokenized documents for clustering"

/-- The pseudo-cluster for a failed TF-IDF vectorization. -/
def insufficientVocabTfidf : ClusterOut :=
  .pseudo "insufficient_vocabulary"
    "Not enough unique terms for TF-IDF vectorization"

/-- The `clusterIdx` assignment loop over `valid_indices` and the K-Means
labels. -/
def assignIdx (posts : List CPost) (asg : List (Nat × Nat)) : List CPost :=
  posts.mapIdx (fun i p =>
    match asg.lookup i with
    | some lab => { p with clusterIdx := some lab }
    | none => p)

/-- One iteration of the cluster-building loop of `cluster_posts`: skip empty
clusters; otherwise match the centroid keywords against the unused taxonomy
entries, record the chosen key as used, build the cluster object, and stamp
the cluster id onto the member posts. -/
def buildStep (o : ClusterOracle) (vdocs : List String) (vidx : List Nat)
    (labels : List Nat)
    (st : List ClusterOut × List String × List CPost) (cidx : Nat) :
    List ClusterOut × List String × List CPost :=
  let memberIdx := ((vidx.zip labels).filter (fun p => p.2 = cidx)).map Prod.fst
  if memberIdx.isEmpty then st
  else
    let keywords := o.centroidKeywords vdocs cidx
    let tl := match_cluster_to_taxonomy keywords st.2.1
    let descr := ((CLUSTER_TAXONOMY.find? (fun e => e.key = tl.1)).map
      TaxEntry.description).getD ""
    let cid := o.freshId cidx
    let cl := ClusterOut.real cid tl.1 tl.2 descr (keywords.take 10)
      memberIdx.length (memberIdx.map (fun i => (st.2.2.getD i default).id))
    (st.1 ++ [cl], st.2.1 ++ [tl.1],
      st.2.2.mapIdx (fun i p =>
        if i ∈ memberIdx then { p with clusterId := some cid } else p))

/-- `cluster_posts` from `clustering.py`: the three short-circuiting guards,
then K-Means assignment and the cluster-building loop over cluster indices
`0, ..., k-1` with its used-taxonomy-key accumulator. -/
def cluster_posts (o : ClusterOracle) (posts : List CPost) (k : Nat) :
    List ClusterOut × List CPost :=
  if posts.isEmpty || posts.length < k then ([insufficientPosts k], posts)
  else if (validIndices posts).length < k then ([insufficientVocabFilter], posts)
  else
    let vdocs := validDocuments posts
    if !o.tfidfOk vdocs then ([insufficientVocabTfidf], posts)
    else
      let labels := o.fitLabels vdocs
      let updated := assignIdx posts ((validIndices posts).zip labels)
      let r := (List.range k).foldl
        (buildStep o vdocs (validIndices posts) labels) ([], [], updated)
      (r.1, r.2.2)

/-! ## `api.py`: cluster-count formula of the `analyze` endpoint -/

/-- The cluster count computed by `api.py`'s `analyze` handler:
`max(3, min(10, int(math.sqrt(len(posts) / 2))))`, then capped at the post
count.  `int(math.sqrt(n / 2))` is the floor of the real square root of
`n / 2`, which for a natural `n` equals `Nat.sqrt (n / 2)` (an integer `m`
with `m ≤ √(n/2) < m + 1` satisfies `m² ≤ ⌊n/2⌋` and `⌊n/2⌋ < (m+1)²`, and
conversely). -/
def apiClusterCount (n : Nat) : Nat :=
  min (max 3 (min 10 (Nat.sqrt (n / 2)))) n

/-- Modelled from the spec: the claimed formula `clamp(round(sqrt(n/2)), 3,
10)`, never exceeding `n`.  Rounding the real square root of `n/2` to the
nearest integer is computed exactly as `(⌊√(2n)⌋ + 1) / 2`: the nearest
integer `m` is characterised by `(2m-1)² ≤ 4·(n/2) < (2m+1)²`, and no
half-integer ties exist because `n/2` is never of the form `m² + m + 1/4`. -/
def claimedClusterCount (n : Nat) : Nat :=
  min (max 3 (min 10 ((Nat.sqrt (2 * n) + 1) / 2))) n

/-- The invariant of the cluster-building fold: emitted taxonomy keys are
pairwise distinct and all recorded as used. -/
def BuildInv (st : List ClusterOut × List String × List CPost) : Prop :=
  (st.1.filterMap ClusterOut.taxId).Nodup ∧
    ∀ t ∈ st.1.filterMap ClusterOut.taxId, t ∈ st.2.1

/-- The foldr-state invariant of `splitWs`: current-token characters satisfy
`Q` and are non-space; flushed tokens are non-empty with such characters. -/
def SplitInv (Q : Char → Prop) (st : List Char × List (List Char)) : Prop :=
  (∀ c ∈ st.1, Q c ∧ pyIsSpace c = false) ∧
    ∀ t ∈ st.2, t ≠ [] ∧ ∀ c ∈ t, Q c ∧ pyIsSpace c = false

/-- The head of the list, when it exists, is not whitespace. -/
def HeadNotSpace : List Char → Prop
  | [] => True
  | c :: _ => pyIsSpace c = false

/-- Every whitespace character is a plain `' '` immediately followed by a
non-space character or the end: exactly the strings `re.sub(r'\s+', ' ')`
leaves unchanged. -/
def SingleSpaced : List Char → Prop
  | [] => True
  | c :: cs => (pyIsSpace c = true → c = ' ' ∧ HeadNotSpace cs) ∧ SingleSpaced cs

/-! ## Lemmas: decimal printing and fallback keys -/

theorem natDigitsF_eq_digits (fuel : Nat) :
    ∀ n : Nat, n ≤ fuel → natDigitsF fuel n = Nat.digits 10 n := by
  induction fuel with
  | zero =>
    intro n hn
    interval_cases n
    simp [natDigitsF]
  | succ fuel ih =>
    intro n hn
    match n with
    | 0 => simp [natDigitsF]
    | m + 1 =>
      rw [natDigitsF, Nat.digits_def' (b := 10) (by norm_num) (Nat.succ_pos m)]
      have hdiv : (m + 1) / 10 ≤ fuel := by
        have := Nat.div_lt_self (Nat.succ_pos m) (by norm_num : 1 < 10)
        omega
      rw [ih _ hdiv]

theorem digitCh_inj_lt :
    ∀ a : Nat, a < 10 → ∀ b : Nat, b < 10 → digitCh a = digitCh b → a = b := by
  decide

theorem map_digitCh_inj :
    ∀ l₁ l₂ : List Nat, (∀ d ∈ l₁, d < 10) → (∀ d ∈ l₂, d < 10) →
      l₁.map digitCh = l₂.map digitCh → l₁ = l₂ := by
  intro l₁
  induction l₁ with
  | nil =>
    intro l₂ _ _ h
    cases l₂ with
    | nil => rfl
    | cons b bs => simp at h
  | cons a as ih =>
    intro l₂ h₁ h₂ h
    cases l₂ with
    | nil => simp at h
    | cons b bs =>
      simp only [List.map_cons, List.cons.injEq] at h
      have ha := h₁ a (by simp)
      have hb := h₂ b (by simp)
      have : a = b := digitCh_inj_lt a ha b hb h.1
      subst this
      rw [ih bs (fun d hd => h₁ d (by simp [hd])) (fun d hd => h₂ d (by simp [hd])) h.2]

theorem digits_lt_ten (n : Nat) : ∀ d ∈ Nat.digits 10 n, d < 10 := by
  intro d hd
  exact Nat.digits_lt_base (by norm_num) hd

theorem natDecimal_data (n : Nat) (hn : n ≠ 0) :
    (natDecimal n).data = ((Nat.digits 10 n).reverse).map digitCh := by
  unfold natDecimal
  rw [if_neg hn, natDigitsF_eq_digits n n le_rfl]

theorem digits_rev_eq_of_data_eq {a b : Nat} (ha : a ≠ 0) (hb : b ≠ 0)
    (h : natDecimal a = natDecimal b) : Nat.digits 10 a = Nat.digits 10 b := by
  have hd : ((Nat.digits 10 a).reverse).map digitCh =
      ((Nat.digits 10 b).reverse).map digitCh := by
    rw [← natDecimal_data a ha, ← natDecimal_data b hb, h]
  have hrev : (Nat.digits 10 a).reverse = (Nat.digits 10 b).reverse :=
    map_digitCh_inj _ _
      (fun d hd' => digits_lt_ten a d (List.mem_reverse.mp hd'))
      (fun d hd' => digits_lt_ten b d (List.mem_reverse.mp hd')) hd
  exact List.reverse_injective hrev

theorem eq_zero_of_natDecimal_eq_zero {b : Nat} (h : natDecimal 0 = natDecimal b) :
    b = 0 := by
  by_contra hb
  have hdata := congrArg String.data h
  rw [natDecimal_data b hb] at hdata
  have h0 : (natDecimal 0).data = [digitCh 0] := rfl
  rw [h0] at hdata
  have : [(0 : Nat)].map digitCh = ((Nat.digits 10 b).reverse).map digitCh := by
    simpa using hdata
  have hlists : [(0 : Nat)] = (Nat.digits 10 b).reverse :=
    map_digitCh_inj _ _ (by intro d hd; simp at hd; omega)
      (fun d hd' => digits_lt_ten b d (List.mem_reverse.mp hd')) this
  have hdig : Nat.digits 10 b = [0] := by
    have := congrArg List.reverse hlists
    simpa using this.symm
  have := Nat.ofDigits_digits 10 b
  rw [hdig] at this
  simp [Nat.ofDigits] at this
  omega

theorem natDecimal_inj : Function.Injective natDecimal := by
  intro a b h
  by_cases ha : a = 0
  · subst ha
    exact (eq_zero_of_natDecimal_eq_zero h).symm
  · by_cases hb : b = 0
    · subst hb
      exact absurd (eq_zero_of_natDecimal_eq_zero h.symm) ha
    · have hdig := digits_rev_eq_of_data_eq ha hb h
      calc a = Nat.ofDigits 10 (Nat.digits 10 a) := (Nat.ofDigits_digits 10 a).symm
        _ = Nat.ofDigits 10 (Nat.digits 10 b) := by rw [hdig]
        _ = b := Nat.ofDigits_digits 10 b

theorem genKey_inj : Function.Injective genKey := by
  intro a b h
  unfold genKey at h
  have hdata := congrArg String.data h
  rw [String.data_append, String.data_append] at hdata
  have := List.append_cancel_left hdata
  exact natDecimal_inj (by apply String.ext; exact this)

theorem genKey_ne_general (c : Nat) : genKey c ≠ "general" := by
  intro h
  have hlen := congrArg (fun s => s.data.length) h
  simp only [genKey, String.data_append, List.length_append] at hlen
  have h8 : ("general_".data).length = 8 := rfl
  have h7 : ("general".data).length = 7 := rfl
  rw [h8, h7] at hlen
  omega

theorem fallbackLoop_spec (exclude : List String) :
    ∀ (fuel c : Nat),
      (∃ d, c ≤ d ∧ d ≤ c + fuel ∧ genKey d ∉ exclude) →
      ∃ d, c ≤ d ∧ genKey d ∉ exclude ∧
        (∀ j, c ≤ j → j < d → genKey j ∈ exclude) ∧
        fallbackLoop exclude fuel (genKey c) (c + 1) = (genKey d, d + 1) := by
  intro fuel
  induction fuel with
  | zero =>
    rintro c ⟨d, h1, h2, h3⟩
    have hdc : d = c := by omega
    subst hdc
    exact ⟨d, le_rfl, h3, fun j hj1 hj2 => absurd (lt_of_le_of_lt hj1 hj2) (lt_irrefl d), rfl⟩
  | succ fuel ih =>
    rintro c hex
    by_cases hc : genKey c ∈ exclude
    · obtain ⟨d, h1, h2, h3⟩ := hex
      have hdc : d ≠ c := fun hh => (hh ▸ h3) hc
      obtain ⟨d', hd1, hd2, hd3, hd4⟩ :=
        ih (c + 1) ⟨d, by omega, by omega, h3⟩
      refine ⟨d', by omega, hd2, ?_, ?_⟩
      · intro j hj1 hj2
        rcases Nat.eq_or_lt_of_le hj1 with hj | hj
        · exact hj ▸ hc
        · exact hd3 j hj hj2
      · rw [fallbackLoop, if_pos hc]
        exact hd4
    · refine ⟨c, le_rfl, hc,
        fun j hj1 hj2 => absurd (lt_of_le_of_lt hj1 hj2) (lt_irrefl c), ?_⟩
      rw [fallbackLoop, if_neg hc]

theorem exists_unexcluded_genKey (exclude : List String) :
    ∃ d, 1 ≤ d ∧ d ≤ exclude.length + 1 ∧ genKey d ∉ exclude := by
  by_contra hcon
  push_neg at hcon
  set l := (List.range' 1 (exclude.length + 1)).map genKey with hl
  have hnd : l.Nodup := List.Nodup.map genKey_inj (List.nodup_range' ..)
  have hsub : ∀ x ∈ l, x ∈ exclude := by
    intro x hx
    rw [hl, List.mem_map] at hx
    obtain ⟨d, hd, rfl⟩ := hx
    rw [List.mem_range'_1] at hd
    exact hcon d hd.1 (by omega)
  have hlen : l.length = exclude.length + 1 := by
    rw [hl, List.length_map, List.length_range']
  have hcard : l.toFinset.card ≤ exclude.toFinset.card :=
    Finset.card_le_card (by
      intro x hx
      rw [List.mem_toFinset] at hx ⊢
      exact hsub x hx)
  rw [List.card_toFinset, List.card_toFinset, hnd.dedup] at hcard
  have h1 : exclude.dedup.length ≤ exclude.length :=
    (List.Sublist.length_le (List.dedup_sublist exclude))
  omega

theorem generalFallback_cases (exclude : List String) :
    ("general" ∉ exclude ∧
      generalFallback exclude = ("general", "General Discussion")) ∨
    ("general" ∈ exclude ∧ ∃ d, 1 ≤ d ∧ genKey d ∉ exclude ∧
      (∀ j, 1 ≤ j → j < d → genKey j ∈ exclude) ∧
      generalFallback exclude = (genKey d, "General Discussion " ++ natDecimal (d + 1))) := by
  by_cases hg : "general" ∈ exclude
  · right
    refine ⟨hg, ?_⟩
    have hpos : 0 < exclude.length := List.length_pos.mpr (by
      intro hh; rw [hh] at hg; exact (List.not_mem_nil _ hg))
    obtain ⟨m, hm⟩ : ∃ m, exclude.length = m + 1 := ⟨exclude.length - 1, by omega⟩
    obtain ⟨d, hd1, hd2, hd3, hd4⟩ :=
      fallbackLoop_spec exclude (m + 1) 1 (by
        obtain ⟨d, h1, h2, h3⟩ := exists_unexcluded_genKey exclude
        exact ⟨d, h1, by omega, h3⟩)
    refine ⟨d, hd1, hd2, hd3, ?_⟩
    unfold generalFallback
    rw [hm]
    have hd4' : fallbackLoop exclude (m + 1) (genKey 1) 2 = (genKey d, d + 1) := hd4
    have hstep : fallbackLoop exclude (m + 1 + 1) "general" 1 =
        fallbackLoop exclude (m + 1) (genKey 1) 2 := by
      rw [fallbackLoop, if_pos hg]
    rw [hstep, hd4']
    simp [genKey_ne_general d]
  · left
    refine ⟨hg, ?_⟩
    unfold generalFallback
    have : fallbackLoop exclude (exclude.length + 1) "general" 1 = ("general", 1) := by
      rw [fallbackLoop, if_neg hg]
    rw [this]
    simp

theorem generalFallback_not_mem (exclude : List String) :
    (generalFallback exclude).1 ∉ exclude := by
  rcases generalFallback_cases exclude with ⟨h1, h2⟩ | ⟨h1, d, _, hd2, _, hd4⟩
  · rw [h2]; exact h1
  · rw [hd4]; exact hd2

/-! ## Lemmas: the best-match fold of the taxonomy matcher -/

theorem taxFold_keep_winner (kws ex : List String) (e : TaxEntry) :
    ∀ l : List TaxEntry,
      (∀ e' ∈ l, e'.key ∉ ex → e' ≠ e → taxScore kws e' < taxScore kws e) →
      l.foldl (taxStep kws ex) (some (e.key, e.label), taxScore kws e) =
        (some (e.key, e.label), taxScore kws e) := by
  intro l
  induction l with
  | nil => intro _; rfl
  | cons x xs ih =>
    intro hdom
    rw [List.foldl_cons]
    have hx : taxStep kws ex (some (e.key, e.label), taxScore kws e) x =
        (some (e.key, e.label), taxScore kws e) := by
      unfold taxStep
      by_cases hmem : x.key ∈ ex
      · rw [if_pos hmem]
      · rw [if_neg hmem]
        by_cases hxe : x = e
        · subst hxe; rw [if_neg (lt_irrefl _)]
        · rw [if_neg (not_lt_of_lt (hdom x (by simp) hmem hxe))]
    rw [hx]
    exact ih (fun e' he' => hdom e' (by simp [he']))

theorem taxFold_reach_winner (kws ex : List String) (e : TaxEntry) :
    ∀ (l : List TaxEntry) (st : Option (String × String) × ℚ),
      st.2 < taxScore kws e → e ∈ l → e.key ∉ ex →
      (∀ e' ∈ l, e'.key ∉ ex → e' ≠ e → taxScore kws e' < taxScore kws e) →
      l.foldl (taxStep kws ex) st = (some (e.key, e.label), taxScore kws e) := by
  intro l
  induction l with
  | nil => intro st _ he; exact absurd he (List.not_mem_nil e)
  | cons x xs ih =>
    intro st hlt he hex hdom
    rw [List.foldl_cons]
    by_cases hxe : x = e
    · subst hxe
      have hstep : taxStep kws ex st x = (some (x.key, x.label), taxScore kws x) := by
        unfold taxStep
        rw [if_neg hex, if_pos hlt]
      rw [hstep]
      exact taxFold_keep_winner kws ex x xs (fun e' he' => hdom e' (by simp [he']))
    · have he' : e ∈ xs := by
        rcases List.mem_cons.mp he with h | h
        · exact absurd h.symm hxe
        · exact h
      have hst' : (taxStep kws ex st x).2 < taxScore kws e := by
        unfold taxStep
        by_cases hmem : x.key ∈ ex
        · rw [if_pos hmem]; exact hlt
        · rw [if_neg hmem]
          by_cases hgt : taxScore kws x > st.2
          · rw [if_pos hgt]
            exact hdom x (by simp) hmem hxe
          · rw [if_neg hgt]; exact hlt
      exact ih _ hst' he' hex (fun e' he'' => hdom e' (by simp [he'']))

theorem taxFold_score_le (kws ex : List String) (q : ℚ) :
    ∀ (l : List TaxEntry) (st : Option (String × String) × ℚ),
      st.2 ≤ q → (∀ e' ∈ l, e'.key ∉ ex → taxScore kws e' ≤ q) →
      (l.foldl (taxStep kws ex) st).2 ≤ q := by
  intro l
  induction l with
  | nil => intro st h _; exact h
  | cons x xs ih =>
    intro st hst hall
    rw [List.foldl_cons]
    refine ih _ ?_ (fun e' he' => hall e' (by simp [he']))
    unfold taxStep
    by_cases hmem : x.key ∈ ex
    · rw [if_pos hmem]; exact hst
    · rw [if_neg hmem]
      by_cases hgt : taxScore kws x > st.2
      · rw [if_pos hgt]; exact hall x (by simp) hmem
      · rw [if_neg hgt]; exact hst

theorem taxFold_key_not_excluded (kws ex : List String) :
    ∀ (l : List TaxEntry) (st : Option (String × String) × ℚ),
      (∀ p, st.1 = some p → p.1 ∉ ex) →
      ∀ p, (l.foldl (taxStep kws ex) st).1 = some p → p.1 ∉ ex := by
  intro l
  induction l with
  | nil => intro st h; exact h
  | cons x xs ih =>
    intro st hst
    rw [List.foldl_cons]
    refine ih _ ?_
    intro p hp
    unfold taxStep at hp
    by_cases hmem : x.key ∈ ex
    · rw [if_pos hmem] at hp; exact hst p hp
    · rw [if_neg hmem] at hp
      by_cases hgt : taxScore kws x > st.2
      · rw [if_pos hgt] at hp
        simp only [Option.some.injEq] at hp
        subst hp
        exact hmem
      · rw [if_neg hgt] at hp; exact hst p hp

theorem match_key_not_mem (keywords exclude : List String) :
    (match_cluster_to_taxonomy keywords exclude).1 ∉ exclude := by
  unfold match_cluster_to_taxonomy
  rcases hbm : bestTaxMatch keywords exclude with ⟨bm, bs⟩
  cases bm with
  | none => exact generalFallback_not_mem exclude
  | some p =>
    simp only
    by_cases hbs : bs > 1 / 2
    · rw [if_pos hbs]
      have := taxFold_key_not_excluded keywords exclude CLUSTER_TAXONOMY (none, 0)
        (fun q hq => by simp at hq)
      have hp : (bestTaxMatch keywords exclude).1 = some p := by rw [hbm]
      exact this p hp
    · rw [if_neg hbs]
      exact generalFallback_not_mem exclude

theorem enumFrom_map_eq_range_map {α β : Type} (d : α) (f : Nat × α → β) :
    ∀ (l : List α) (j : Nat),
      (List.enumFrom j l).map f =
        (List.range l.length).map (fun i => f (j + i, l.getD i d)) := by
  intro l
  induction l with
  | nil => intro j; rfl
  | cons a as ih =>
    intro j
    rw [List.enumFrom, List.map_cons, List.length_cons, List.range_succ_eq_map,
      List.map_cons, List.map_map, ih (j + 1)]
    refine congrArg₂ List.cons (by simp) ?_
    refine List.map_congr_left ?_
    intro i _
    simp only [Function.comp_apply, List.getD_cons_succ]
    have : j + 1 + i = j + (i + 1) := by omega
    rw [this]

theorem taxScore_eq_specScore (keywords : List String) (e : TaxEntry) :
    taxScore keywords e = specScore keywords e := by
  unfold taxScore specScore
  simp only
  have henum : (keywords.map strLower).enum =
      List.enumFrom 0 (keywords.map strLower) := rfl
  rw [henum, enumFrom_map_eq_range_map ""
    (fun p => if candidateHits (e.keywords.map strLower) p.2
      then ((keywords.length : ℚ) - (p.1 : ℚ)) / (keywords.length : ℚ) else 0)]
  rw [List.length_map]
  refine congrArg List.sum (List.map_congr_left ?_)
  intro i _
  simp

/-! ## Lemmas: the cluster-building fold keeps taxonomy keys distinct -/

theorem buildStep_inv (o : ClusterOracle) (vd : List String) (vi lb : List Nat)
    (st : List ClusterOut × List String × List CPost) (cidx : Nat)
    (h : BuildInv st) : BuildInv (buildStep o vd vi lb st cidx) := by
  unfold buildStep
  by_cases hm : (((vi.zip lb).filter (fun p => p.2 = cidx)).map Prod.fst).isEmpty
  · rw [if_pos hm]; exact h
  · rw [if_neg hm]
    obtain ⟨hnd, hmem⟩ := h
    have hnot : (match_cluster_to_taxonomy (o.centroidKeywords vd cidx) st.2.1).1
        ∉ st.2.1 := match_key_not_mem _ _
    constructor
    · simp only [List.filterMap_append, ClusterOut.taxId, List.filterMap_cons,
        List.filterMap_nil]
      rw [List.nodup_append]
      refine ⟨hnd, by simp, ?_⟩
      intro t ht
      simp only [List.mem_singleton]
      intro hts
      subst hts
      exact hnot (hmem _ ht)
    · intro t ht
      simp only [List.filterMap_append, ClusterOut.taxId, List.filterMap_cons,
        List.filterMap_nil, List.mem_append, List.mem_singleton] at ht
      rcases ht with ht | ht
      · exact List.mem_append_left _ (hmem t ht)
      · subst ht
        exact List.mem_append_right _ (by simp)

theorem buildFold_inv (o : ClusterOracle) (vd : List String) (vi lb : List Nat) :
    ∀ (l : List Nat) (st : List ClusterOut × List String × List CPost),
      BuildInv st → BuildInv (l.foldl (buildStep o vd vi lb) st) := by
  intro l
  induction l with
  | nil => intro st h; exact h
  | cons c cs ih =>
    intro st h
    rw [List.foldl_cons]
    exact ih _ (buildStep_inv o vd vi lb st c h)

/-! ## Claim theorems: taxonomy uniqueness (C1, C2, C10) -/

/-- C1: `match_cluster_to_taxonomy` never returns a key of the exclude set,
and `cluster_posts` — which accumulates each returned key into the set before
matching the next cluster in cluster-index order — therefore emits clusters
whose taxonomy keys are pairwise distinct, for every oracle, post list and
cluster count. -/
theorem claim_C1 :
    (∀ (keywords exclude : List String),
      (match_cluster_to_taxonomy keywords exclude).1 ∉ exclude) ∧
    (∀ (o : ClusterOracle) (posts : List CPost) (k : Nat),
      (((cluster_posts o posts k).1).filterMap ClusterOut.taxId).Nodup) := by
  constructor
  · exact match_key_not_mem
  · intro o posts k
    unfold cluster_posts
    by_cases h1 : posts.isEmpty || posts.length < k
    · rw [if_pos h1]
      simp [insufficientPosts, ClusterOut.taxId]
    · rw [if_neg h1]
      by_cases h2 : (validIndices posts).length < k
      · rw [if_pos h2]
        simp [insufficientVocabFilter, ClusterOut.taxId]
      · rw [if_neg h2]
        by_cases h3 : !o.tfidfOk (validDocuments posts)
        · rw [if_pos h3]
          simp [insufficientVocabTfidf, ClusterOut.taxId]
        · rw [if_neg h3]
          simp only
          refine (buildFold_inv o _ _ _ (List.range k) ([], [], _) ?_).1
          exact ⟨by simp, fun t ht => absurd ht (by simp)⟩

/-- C2: the per-entry score of `match_cluster_to_taxonomy` is exactly the
position-weighted sum the spec describes; the entry with the strictly
highest score among the non-excluded entries is returned whenever that score
exceeds 0.5; and when every non-excluded entry scores at most 0.5 the
synthesized general fallback key is returned, unique against the exclude set
by a numeric suffix. -/
theorem claim_C2 (keywords exclude : List String) :
    (∀ e : TaxEntry, taxScore keywords e = specScore keywords e) ∧
    (∀ e ∈ CLUSTER_TAXONOMY, e.key ∉ exclude → 1 / 2 < taxScore keywords e →
      (∀ e' ∈ CLUSTER_TAXONOMY, e'.key ∉ exclude → e' ≠ e →
        taxScore keywords e' < taxScore keywords e) →
      match_cluster_to_taxonomy keywords exclude = (e.key, e.label)) ∧
    ((∀ e ∈ CLUSTER_TAXONOMY, e.key ∉ exclude → taxScore keywords e ≤ 1 / 2) →
      match_cluster_to_taxonomy keywords exclude = generalFallback exclude ∧
      (match_cluster_to_taxonomy keywords exclude).1 ∉ exclude ∧
      ("general" ∉ exclude →
        match_cluster_to_taxonomy keywords exclude = ("general", "General Discussion")) ∧
      ("general" ∈ exclude → ∃ c, 1 ≤ c ∧ genKey c ∉ exclude ∧
        match_cluster_to_taxonomy keywords exclude =
          (genKey c, "General Discussion " ++ natDecimal (c + 1)))) := by
  refine ⟨fun e => taxScore_eq_specScore keywords e, ?_, ?_⟩
  · intro e he hex hgt hdom
    have hfold : bestTaxMatch keywords exclude =
        (some (e.key, e.label), taxScore keywords e) :=
      taxFold_reach_winner keywords exclude e CLUSTER_TAXONOMY (none, 0)
        (lt_trans (by norm_num) hgt) he hex hdom
    unfold match_cluster_to_taxonomy
    rw [hfold]
    simp only
    rw [if_pos hgt]
  · intro hall
    have hle : (bestTaxMatch keywords exclude).2 ≤ 1 / 2 :=
      taxFold_score_le keywords exclude (1 / 2) CLUSTER_TAXONOMY (none, 0)
        (by norm_num) hall
    have hmatch : match_cluster_to_taxonomy keywords exclude =
        generalFallback exclude := by
      unfold match_cluster_to_taxonomy
      rcases hbm : bestTaxMatch keywords exclude with ⟨bm, bs⟩
      have hbs : bs ≤ 1 / 2 := by rw [hbm] at hle; exact hle
      cases bm with
      | none => rfl
      | some p =>
        simp only
        rw [if_neg (not_lt_of_le hbs)]
    refine ⟨hmatch, hmatch ▸ generalFallback_not_mem exclude, ?_, ?_⟩
    · intro hng
      rcases generalFallback_cases exclude with ⟨_, h2⟩ | ⟨h1, _⟩
      · rw [hmatch, h2]
      · exact absurd h1 hng
    · intro hg
      rcases generalFallback_cases exclude with ⟨h1, _⟩ | ⟨_, d, hd1, hd2, _, hd4⟩
      · exact absurd hg h1
      · exact ⟨d, hd1, hd2, by rw [hmatch, hd4]⟩

/-- C10: whenever `'general'` is already excluded, the fallback returns the
key `general_c` for the smallest positive suffix `c` whose key is unused,
while the paired label carries the suffix `c + 1` — one greater than the
key's suffix. -/
theorem claim_C10 (exclude : List String) (hg : "general" ∈ exclude) :
    ∃ c, 1 ≤ c ∧ genKey c ∉ exclude ∧
      (∀ j, 1 ≤ j → j < c → genKey j ∈ exclude) ∧
      generalFallback exclude =
        (genKey c, "General Discussion " ++ natDecimal (c + 1)) := by
  rcases generalFallback_cases exclude with ⟨h1, _⟩ | ⟨_, d, hd1, hd2, hd3, hd4⟩
  · exact absurd hg h1
  · exact ⟨d, hd1, hd2, hd3, hd4⟩

/-- Witness for C10 at the concrete exclude set containing only `'general'`:
the key gets suffix 1, the label gets suffix 2. -/
theorem claim_C10_witness :
    generalFallback ["general"] = ("general_1", "General Discussion 2") := by
  obtain ⟨c, hc1, _, hc3, hc4⟩ := claim_C10 ["general"] (by decide)
  have hc : c = 1 := by
    by_contra hne
    have h2 : 2 ≤ c := by omega
    have := hc3 1 le_rfl (by omega)
    simp only [List.mem_singleton] at this
    exact genKey_ne_general 1 this
  subst hc
  rw [hc4]
  decide

/-- Witness for C2 at the spec's own example: the EV keyword list matches
the `ev_adoption` entry (score 3 over the other entries' 0), and excluding
that key forces a different result. -/
theorem claim_C2_witness :
    match_cluster_to_taxonomy ["electric", "battery", "charging", "range", "ev"] [] =
      ("ev_adoption", "EV Adoption") := by
  have h := (claim_C2 ["electric", "battery", "charging", "range", "ev"] []).2.1
  have hscore0 : taxScore ["electric", "battery", "charging", "range", "ev"]
      (CLUSTER_TAXONOMY.getD 0 ⟨"", [], "", ""⟩) = 3 := by
    simp +decide only [taxScore, CLUSTER_TAXONOMY, List.enum, List.enumFrom,
      List.map, List.getD, List.sum]
    norm_num
  refine h (CLUSTER_TAXONOMY.getD 0 ⟨"", [], "", ""⟩) (by decide) (by decide) ?_ ?_
  · rw [hscore0]; norm_num
  · intro e' he' _ hne
    rw [hscore0]
    simp only [CLUSTER_TAXONOMY] at he'
    fin_cases he'
    · exact absurd (by decide) hne
    · simp +decide only [taxScore, List.enum, List.enumFrom, List.map,
        List.getD, List.sum]
      norm_num
    · simp +decide only [taxScore, List.enum, List.enumFrom, List.map,
        List.getD, List.sum]
      norm_num
    · simp +decide only [taxScore, List.enum, List.enumFrom, List.map,
        List.getD, List.sum]
      norm_num
    · simp +decide only [taxScore, List.enum, List.enumFrom, List.map,
        List.getD, List.sum]
      norm_num
    · simp +decide only [taxScore, List.enum, List.enumFrom, List.map,
        List.getD, List.sum]
      norm_num
    · simp +decide only [taxScore, List.enum, List.enumFrom, List.map,
        List.getD, List.sum]
      norm_num
    · simp +decide only [taxScore, List.enum, List.enumFrom, List.map,
        List.getD, List.sum]
      norm_num

/-! ## Claim theorem: clustering guards (C3) -/

/-- C3: `cluster_posts` is total, and its three guards short-circuit in
order — too few posts yields the single `insufficient_posts` pseudo-cluster
with the posts unchanged; then too few non-blank documents, and then a failed
TF-IDF vectorization, each yield the single `insufficient_vocabulary`
pseudo-cluster with the posts unchanged. -/
theorem claim_C3 (o : ClusterOracle) (posts : List CPost) (k : Nat) :
    (posts = [] ∨ posts.length < k →
      cluster_posts o posts k = ([insufficientPosts k], posts)) ∧
    (¬(posts = [] ∨ posts.length < k) → (validIndices posts).length < k →
      cluster_posts o posts k = ([insufficientVocabFilter], posts)) ∧
    (¬(posts = [] ∨ posts.length < k) → ¬((validIndices posts).length < k) →
      o.tfidfOk (validDocuments posts) = false →
      cluster_posts o posts k = ([insufficientVocabTfidf], posts)) := by
  refine ⟨?_, ?_, ?_⟩
  · intro h
    have hb : (posts.isEmpty || posts.length < k) = true := by
      rcases h with h | h
      · simp [h]
      · simp [h]
    unfold cluster_posts
    rw [if_pos hb]
  · intro h1 h2
    have hb : ¬(posts.isEmpty || posts.length < k) = true := by
      simp only [Bool.or_eq_true, List.isEmpty_iff, decide_eq_true_eq]
      exact h1
    unfold cluster_posts
    rw [if_neg hb, if_pos h2]
  · intro h1 h2 h3
    have hb : ¬(posts.isEmpty || posts.length < k) = true := by
      simp only [Bool.or_eq_true, List.isEmpty_iff, decide_eq_true_eq]
      exact h1
    unfold cluster_posts
    rw [if_neg hb, if_neg h2]
    simp [h3]

/-- Witness for C3 at the spec's own examples: no posts with `k = 3`, two
posts with `k = 5`, and four empty-token posts with `k = 3`. -/
theorem claim_C3_witness :
    cluster_posts ⟨fun _ => true, fun _ => [], fun _ _ => [], fun _ => ""⟩ [] 3 =
      ([insufficientPosts 3], []) ∧
    cluster_posts ⟨fun _ => true, fun _ => [], fun _ _ => [], fun _ => ""⟩
      [⟨"1", ["great", "truck"], none, none⟩, ⟨"2", ["amazing"], none, none⟩] 5 =
      ([insufficientPosts 5],
        [⟨"1", ["great", "truck"], none, none⟩, ⟨"2", ["amazing"], none, none⟩]) ∧
    cluster_posts ⟨fun _ => true, fun _ => [], fun _ _ => [], fun _ => ""⟩
      [⟨"1", [], none, none⟩, ⟨"2", [], none, none⟩,
       ⟨"3", [], none, none⟩, ⟨"4", [], none, none⟩] 3 =
      ([insufficientVocabFilter],
        [⟨"1", [], none, none⟩, ⟨"2", [], none, none⟩,
         ⟨"3", [], none, none⟩, ⟨"4", [], none, none⟩]) := by
  refine ⟨?_, ?_, ?_⟩
  · exact (claim_C3 _ _ _).1 (Or.inl rfl)
  · exact (claim_C3 _ _ _).1 (Or.inr (by decide))
  · exact (claim_C3 _ _ _).2.1 (by intro h; rcases h with h | h <;> simp at h)
      (by decide)

/-! ## Claim theorem: cluster sentiment aggregation (C5) -/

/-- C5: `aggregate_cluster_sentiment` returns 0 on an empty member list and
otherwise the arithmetic mean of compound values with missing vectors
counting as 0 in the numerator but still in the denominator;
`classify_sentiment` applies the fixed 0.3 thresholds to the mean; and the
spec's three worked examples (plus the missing-vector case) evaluate as
claimed, with 0.8 - 0.6 + 0.2 averaging to 2/15 which is approximately
0.133. -/
theorem claim_C5 :
    (aggregate_cluster_sentiment [] = 0 ∧
      classify_sentiment (aggregate_cluster_sentiment []) = "neutral") ∧
    (∀ posts : List APost, posts ≠ [] →
      (posts.length : ℚ) * aggregate_cluster_sentiment posts =
        (posts.map (fun p => ((p.sentiment.map Sentiment.compound).getD 0))).sum) ∧
    (∀ s : ℚ, (classify_sentiment s = "positive" ↔ 3 / 10 ≤ s) ∧
      (classify_sentiment s = "negative" ↔ s ≤ -(3 / 10)) ∧
      (classify_sentiment s = "neutral" ↔ -(3 / 10) < s ∧ s < 3 / 10)) ∧
    (aggregate_cluster_sentiment [⟨some ⟨1/2, 0, 0, 0⟩⟩] = 1/2 ∧
      classify_sentiment (aggregate_cluster_sentiment [⟨some ⟨1/2, 0, 0, 0⟩⟩]) =
        "positive") ∧
    (aggregate_cluster_sentiment
        [⟨some ⟨8/10, 0, 0, 0⟩⟩, ⟨some ⟨-(6/10), 0, 0, 0⟩⟩, ⟨some ⟨2/10, 0, 0, 0⟩⟩] =
      2/15 ∧
      classify_sentiment (aggregate_cluster_sentiment
        [⟨some ⟨8/10, 0, 0, 0⟩⟩, ⟨some ⟨-(6/10), 0, 0, 0⟩⟩, ⟨some ⟨2/10, 0, 0, 0⟩⟩]) =
        "neutral") ∧
    aggregate_cluster_sentiment [⟨none⟩, ⟨some ⟨1/2, 0, 0, 0⟩⟩] = 1/4 := by
  refine ⟨⟨?_, ?_⟩, ?_, ?_, ⟨?_, ?_⟩, ⟨?_, ?_⟩, ?_⟩
  · rfl
  · norm_num [aggregate_cluster_sentiment, classify_sentiment]
  · intro posts hne
    unfold aggregate_cluster_sentiment
    rw [if_neg (by simpa [List.isEmpty_iff] using hne)]
    have hlen : (posts.length : ℚ) ≠ 0 := by
      have hp := List.length_pos.mpr hne
      exact_mod_cast Nat.pos_iff_ne_zero.mp hp
    field_simp
  · intro s
    unfold classify_sentiment
    refine ⟨?_, ?_, ?_⟩
    · constructor
      · intro h
        by_contra hlt
        rw [if_neg (by exact fun hh => hlt hh)] at h
        split at h <;> simp_all
      · intro h; rw [if_pos h]
    · constructor
      · intro h
        by_cases h1 : s ≥ 3 / 10
        · rw [if_pos h1] at h; simp at h
        · rw [if_neg h1] at h
          by_contra hlt
          rw [if_neg (by exact fun hh => hlt hh)] at h
          simp at h
      · intro h
        rw [if_neg (by linarith), if_pos h]
    · constructor
      · intro h
        by_cases h1 : s ≥ 3 / 10
        · rw [if_pos h1] at h; simp at h
        · by_cases h2 : s ≤ -(3 / 10)
          · rw [if_neg h1, if_pos h2] at h; simp at h
          · constructor <;> [linarith [not_le.mp h2]; linarith [not_le.mp h1]]
      · rintro ⟨ha, hb⟩
        rw [if_neg (by linarith), if_neg (by linarith)]
  · norm_num [aggregate_cluster_sentiment, List.sum]
  · norm_num [aggregate_cluster_sentiment, classify_sentiment, List.sum]
  · norm_num [aggregate_cluster_sentiment, List.sum]
  · norm_num [aggregate_cluster_sentiment, classify_sentiment, List.sum]
  · norm_num [aggregate_cluster_sentiment, List.sum]

/-- Witness for C5's general mean statement at a concrete two-element list. -/
theorem claim_C5_witness :
    ((2 : ℚ) * aggregate_cluster_sentiment [⟨none⟩, ⟨some ⟨1/2, 0, 0, 0⟩⟩] =
      0 + (1/2 + 0)) := by
  have h := claim_C5.2.1 [⟨none⟩, ⟨some ⟨1/2, 0, 0, 0⟩⟩] (by simp)
  simpa [List.sum] using h

/-! ## Lemmas: the batched sentiment paths -/

theorem chunk5_join : ∀ posts : List Post, (chunk5 posts).flatten = posts
  | [] => rfl
  | [a] => rfl
  | [a, b] => rfl
  | [a, b, c] => rfl
  | [a, b, c, d] => rfl
  | a :: b :: c :: d :: e :: rest => by
    rw [chunk5, List.flatten_cons, chunk5_join rest]
    rfl

theorem zipWith_mk_map_post :
    ∀ (ps : List Post) (ss : List Sentiment), ss.length = ps.length →
      (List.zipWith (fun p s => ScoredPost.mk p s) ps ss).map ScoredPost.post = ps := by
  intro ps
  induction ps with
  | nil => intro ss _; rfl
  | cons p ps ih =>
    intro ss hlen
    cases ss with
    | nil => simp at hlen
    | cons s ss =>
      simp only [List.zipWith_cons_cons, List.map_cons, List.cons.injEq]
      exact ⟨trivial, ih ss (by simpa using hlen)⟩

theorem analyzeBatch_map_post (batchO : List Post → Option (List Sentiment))
    (b : List Post) (rs : List ScoredPost)
    (h : analyzeBatch batchO b = some rs) : rs.map ScoredPost.post = b := by
  unfold analyzeBatch at h
  by_cases hb : b.isEmpty
  · rw [if_pos hb] at h
    cases h
    simp [List.isEmpty_iff.mp hb]
  · rw [if_neg hb] at h
    rcases Option.bind_eq_some.mp h with ⟨sents, hbo, hs⟩
    by_cases hlen : sents.length = b.length
    · rw [if_pos hlen] at hs
      cases hs
      exact zipWith_mk_map_post b sents hlen
    · rw [if_neg hlen] at hs
      cases hs

theorem perPostGemini_map_post (geminiOk : Bool) (single : String → Option Sentiment) :
    ∀ (b : List Post) (rs : List ScoredPost),
      perPostGemini geminiOk single b = some rs → rs.map ScoredPost.post = b := by
  intro b
  induction b with
  | nil => intro rs h; cases h; rfl
  | cons p ps ih =>
    intro rs h
    unfold perPostGemini at h
    cases hg : analyze_sentiment_gemini geminiOk single p.content with
    | none => rw [hg] at h; cases h
    | some s =>
      rw [hg] at h
      cases hrec : perPostGemini geminiOk single ps with
      | none => rw [hrec] at h; cases h
      | some rs' =>
        rw [hrec] at h
        cases h
        simp only [List.map_cons, List.cons.injEq]
        exact ⟨trivial, ih rs' hrec⟩

theorem optTruthy_some {α : Type} (r : Option (List α)) (l : List α)
    (h : optTruthy r = some l) : r = some l := by
  unfold optTruthy at h
  match r, h with
  | some [], h => cases h
  | some (a :: as), h => exact h
  | none, h => cases h

theorem processBatches_map_post (geminiOk : Bool)
    (batchO : List Post → Option (List Sentiment))
    (single : String → Option Sentiment) :
    ∀ (bs : List (List Post)) (rs : List ScoredPost),
      processBatches geminiOk batchO single bs = some rs →
      rs.map ScoredPost.post = bs.flatten := by
  intro bs
  induction bs with
  | nil => intro rs h; cases h; rfl
  | cons b bs ih =>
    intro rs h
    unfold processBatches at h
    cases hob : optTruthy (analyzeBatch batchO b) with
    | some rs1 =>
      rw [hob] at h
      cases hrec : processBatches geminiOk batchO single bs with
      | none => rw [hrec] at h; cases h
      | some rs2 =>
        rw [hrec] at h
        cases h
        rw [List.flatten_cons, List.map_append,
          analyzeBatch_map_post batchO b rs1 (optTruthy_some _ _ hob), ih rs2 hrec]
    | none =>
      rw [hob] at h
      cases hpp : perPostGemini geminiOk single b with
      | none => rw [hpp] at h; cases h
      | some rs1 =>
        rw [hpp] at h
        cases hrec : processBatches geminiOk batchO single bs with
        | none => rw [hrec] at h; cases h
        | some rs2 =>
          rw [hrec] at h
          cases h
          rw [List.flatten_cons, List.map_append,
            perPostGemini_map_post geminiOk single b rs1 hpp, ih rs2 hrec]

/-! ## Claim theorem: one result per post, in order (C8) -/

/-- C8: on every path — generative batch, generative per-document fallback,
and whole-batch lexicon fallback — `analyze_posts_sentiment` returns exactly
one result per input post, in input order, each carrying the original post's
fields plus a sentiment vector. -/
theorem claim_C8 (geminiOk : Bool) (batchO : List Post → Option (List Sentiment))
    (single : String → Option Sentiment) (vader : String → Sentiment)
    (posts : List Post) :
    (analyze_posts_sentiment geminiOk batchO single vader posts).map
      ScoredPost.post = posts ∧
    (analyze_posts_sentiment geminiOk batchO single vader posts).length =
      posts.length := by
  have hmain : (analyze_posts_sentiment geminiOk batchO single vader posts).map
      ScoredPost.post = posts := by
    unfold analyze_posts_sentiment
    by_cases hg : geminiOk
    · rw [if_pos hg]
      cases hob : optTruthy (analyze_posts_sentiment_gemini geminiOk batchO single posts) with
      | some rs =>
        simp only
        have h1 := optTruthy_some _ _ hob
        unfold analyze_posts_sentiment_gemini at h1
        rw [hg] at h1
        simp only [Bool.not_true, Bool.false_eq_true, if_false] at h1
        have := processBatches_map_post true batchO single (chunk5 posts) rs h1
        rw [this, chunk5_join]
      | none =>
        simp only
        have hcomp : (ScoredPost.post ∘ fun p =>
            ScoredPost.mk p (analyze_sentiment_vader vader p.content)) = fun p => p := rfl
        rw [List.map_map, hcomp]
        exact List.map_id _
    · rw [if_neg hg]
      have hcomp : (ScoredPost.post ∘ fun p =>
          ScoredPost.mk p (analyze_sentiment_vader vader p.content)) = fun p => p := rfl
      rw [List.map_map, hcomp]
      exact List.map_id _
  refine ⟨hmain, ?_⟩
  have := congrArg List.length hmain
  rwa [List.length_map] at this

/-! ## Claim theorems: the empty-text short-circuit (C4) -/

/-- C4 counterexample: the batched lexicon-fallback path does not
short-circuit blank content — it invokes the lexicon scorer (whose value on
blank text, per VADER's `score_valence`, is the all-zero vector) and returns
that value, which differs from the claimed neutral vector in its `neutral`
component. -/
theorem claim_C4_counterexample :
    analyze_posts_sentiment false (fun _ => none) (fun _ => none)
        (fun _ => vaderZeroVec) [⟨"1", ""⟩] =
      [⟨⟨"1", ""⟩, vaderZeroVec⟩] ∧
    (vaderZeroVec.neutral = 0 ∧ neutralVec.neutral = 1) ∧
    vaderZeroVec ≠ neutralVec := by
  refine ⟨rfl, ⟨rfl, rfl⟩, ?_⟩
  intro h
  have := congrArg Sentiment.neutral h
  simp [vaderZeroVec, neutralVec] at this

/-- C4 (amended): the empty/whitespace short-circuit to the exact neutral
vector holds for the single-text entry point `analyze_sentiment` (and for
the per-document generative scorer), but the batched entry point's
lexicon-fallback path instead applies the VADER scorer to every content
verbatim, with no short-circuit. -/
theorem claim_C4_amended (geminiOk : Bool) (single : String → Option Sentiment)
    (batchO : List Post → Option (List Sentiment)) (vader : String → Sentiment)
    (text : String) (posts : List Post) (h : isBlank text = true) :
    analyze_sentiment geminiOk single vader text = neutralVec ∧
    analyze_sentiment_gemini true single text = some neutralVec ∧
    analyze_posts_sentiment false batchO single vader posts =
      posts.map (fun p => ScoredPost.mk p (vader p.content)) := by
  refine ⟨?_, ?_, ?_⟩
  · unfold analyze_sentiment
    rw [if_pos h]
  · unfold analyze_sentiment_gemini
    rw [if_pos h]
    rfl
  · unfold analyze_posts_sentiment
    simp [analyze_sentiment_vader]

/-- Witness for C4's amended statement at blank text and one concrete post. -/
theorem claim_C4_witness :
    analyze_sentiment true (fun _ => none) (fun _ => vaderZeroVec) "  " = neutralVec ∧
    analyze_posts_sentiment false (fun _ => none) (fun _ => none)
        (fun _ => vaderZeroVec) [⟨"1", "hello"⟩] =
      [⟨⟨"1", "hello"⟩, vaderZeroVec⟩] := by
  have h := claim_C4_amended true (fun _ => none) (fun _ => none)
    (fun _ => vaderZeroVec) "  " [⟨"1", "hello"⟩] (by decide)
  exact ⟨h.1, h.2.2⟩

/-! ## Claim theorems: sentiment-vector bounds (C7) -/

theorem neutralVec_bounded : BoundedVec neutralVec := by
  unfold BoundedVec neutralVec
  norm_num

theorem analyze_sentiment_gemini_bounded (geminiOk : Bool)
    (single : String → Option Sentiment)
    (hs : ∀ t s, single t = some s → BoundedVec s) (text : String)
    (s : Sentiment) (h : analyze_sentiment_gemini geminiOk single text = some s) :
    BoundedVec s := by
  unfold analyze_sentiment_gemini at h
  by_cases hg : !geminiOk
  · rw [if_pos hg] at h; cases h
  · rw [if_neg hg] at h
    by_cases hb : isBlank text
    · rw [if_pos hb] at h
      cases h
      exact neutralVec_bounded
    · rw [if_neg hb] at h
      exact hs text s h

theorem zipWith_mk_sentiment_mem :
    ∀ (ps : List Post) (ss : List Sentiment) (x : ScoredPost),
      x ∈ List.zipWith (fun p s => ScoredPost.mk p s) ps ss →
      x.sentiment ∈ ss := by
  intro ps
  induction ps with
  | nil => intro ss x hx; simp at hx
  | cons p ps ih =>
    intro ss x hx
    cases ss with
    | nil => simp at hx
    | cons s ss =>
      rw [List.zipWith_cons_cons, List.mem_cons] at hx
      rcases hx with hx | hx
      · subst hx; simp
      · exact List.mem_cons_of_mem _ (ih ss x hx)

theorem analyzeBatch_bounded (batchO : List Post → Option (List Sentiment))
    (hb : ∀ b l, batchO b = some l → ∀ s ∈ l, BoundedVec s)
    (b : List Post) (rs : List ScoredPost) (h : analyzeBatch batchO b = some rs) :
    ∀ x ∈ rs, BoundedVec x.sentiment := by
  unfold analyzeBatch at h
  by_cases hbe : b.isEmpty
  · rw [if_pos hbe] at h
    cases h
    intro x hx
    simp at hx
  · rw [if_neg hbe] at h
    rcases Option.bind_eq_some.mp h with ⟨sents, hbo, hs⟩
    by_cases hlen : sents.length = b.length
    · rw [if_pos hlen] at hs
      cases hs
      intro x hx
      exact hb b sents hbo _ (zipWith_mk_sentiment_mem b sents x hx)
    · rw [if_neg hlen] at hs
      cases hs

theorem perPostGemini_bounded (geminiOk : Bool)
    (single : String → Option Sentiment)
    (hs : ∀ t s, single t = some s → BoundedVec s) :
    ∀ (b : List Post) (rs : List ScoredPost),
      perPostGemini geminiOk single b = some rs →
      ∀ x ∈ rs, BoundedVec x.sentiment := by
  intro b
  induction b with
  | nil => intro rs h x hx; cases h; simp at hx
  | cons p ps ih =>
    intro rs h x hx
    unfold perPostGemini at h
    cases hg : analyze_sentiment_gemini geminiOk single p.content with
    | none => rw [hg] at h; cases h
    | some s =>
      rw [hg] at h
      cases hrec : perPostGemini geminiOk single ps with
      | none => rw [hrec] at h; cases h
      | some rs' =>
        rw [hrec] at h
        cases h
        rw [List.mem_cons] at hx
        rcases hx with hx | hx
        · subst hx
          exact analyze_sentiment_gemini_bounded geminiOk single hs p.content s hg
        · exact ih rs' hrec x hx

theorem processBatches_bounded (geminiOk : Bool)
    (batchO : List Post → Option (List Sentiment))
    (single : String → Option Sentiment)
    (hbO : ∀ b l, batchO b = some l → ∀ s ∈ l, BoundedVec s)
    (hs : ∀ t s, single t = some s → BoundedVec s) :
    ∀ (bs : List (List Post)) (rs : List ScoredPost),
      processBatches geminiOk batchO single bs = some rs →
      ∀ x ∈ rs, BoundedVec x.sentiment := by
  intro bs
  induction bs with
  | nil => intro rs h x hx; cases h; simp at hx
  | cons b bs ih =>
    intro rs h x hx
    unfold processBatches at h
    cases hob : optTruthy (analyzeBatch batchO b) with
    | some rs1 =>
      rw [hob] at h
      cases hrec : processBatches geminiOk batchO single bs with
      | none => rw [hrec] at h; cases h
      | some rs2 =>
        rw [hrec] at h
        cases h
        rw [List.mem_append] at hx
        rcases hx with hx | hx
        · exact analyzeBatch_bounded batchO hbO b rs1 (optTruthy_some _ _ hob) x hx
        · exact ih rs2 hrec x hx
    | none =>
      rw [hob] at h
      cases hpp : perPostGemini geminiOk single b with
      | none => rw [hpp] at h; cases h
      | some rs1 =>
        rw [hpp] at h
        cases hrec : processBatches geminiOk batchO single bs with
        | none => rw [hrec] at h; cases h
        | some rs2 =>
          rw [hrec] at h
          cases h
          rw [List.mem_append] at hx
          rcases hx with hx | hx
          · exact perPostGemini_bounded geminiOk single hs b rs1 hpp x hx
          · exact ih rs2 hrec x hx

/-- C7 counterexample: a provider batch response that parses and has the
right entry count but carries an out-of-range compound value (here 5) is
copied verbatim into the output vector — the code performs no bounds
validation or clamping, so the claimed invariant fails. -/
theorem claim_C7_counterexample :
    analyze_posts_sentiment true (fun _ => some [⟨5, 0, 0, 0⟩]) (fun _ => none)
        (fun _ => neutralVec) [⟨"1", "great"⟩] =
      [⟨⟨"1", "great"⟩, ⟨5, 0, 0, 0⟩⟩] ∧
    ¬ BoundedVec (⟨5, 0, 0, 0⟩ : Sentiment) := by
  constructor
  · rfl
  · unfold BoundedVec
    norm_num

/-- C7 (amended): every sentiment vector produced by the pipeline is bounded
— non-negative components and compound between -1 and 1 — provided the
parsed provider responses and the lexicon scorer only produce bounded
vectors; the code itself never clamps, so the invariant is exactly as strong
as what the external scorers deliver. -/
theorem claim_C7_amended (geminiOk : Bool)
    (batchO : List Post → Option (List Sentiment))
    (single : String → Option Sentiment) (vader : String → Sentiment)
    (hbO : ∀ b l, batchO b = some l → ∀ s ∈ l, BoundedVec s)
    (hs : ∀ t s, single t = some s → BoundedVec s)
    (hv : ∀ t, BoundedVec (vader t)) :
    (∀ text, BoundedVec (analyze_sentiment geminiOk single vader text)) ∧
    (∀ posts, ∀ x ∈ analyze_posts_sentiment geminiOk batchO single vader posts,
      BoundedVec x.sentiment) := by
  constructor
  · intro text
    unfold analyze_sentiment
    by_cases hb : isBlank text
    · rw [if_pos hb]; exact neutralVec_bounded
    · rw [if_neg hb]
      by_cases hg : geminiOk
      · rw [if_pos hg]
        cases hgem : analyze_sentiment_gemini geminiOk single text with
        | some r =>
          exact analyze_sentiment_gemini_bounded geminiOk single hs text r hgem
        | none => exact hv text
      · rw [if_neg hg]; exact hv text
  · intro posts x hx
    unfold analyze_posts_sentiment at hx
    by_cases hg : geminiOk
    · rw [if_pos hg] at hx
      cases hob : optTruthy (analyze_posts_sentiment_gemini geminiOk batchO single posts) with
      | some rs =>
        rw [hob] at hx
        simp only at hx
        have h1 := optTruthy_some _ _ hob
        unfold analyze_posts_sentiment_gemini at h1
        rw [hg] at h1
        simp only [Bool.not_true, Bool.false_eq_true, if_false] at h1
        exact processBatches_bounded true batchO single hbO hs (chunk5 posts) rs h1 x hx
      | none =>
        rw [hob] at hx
        simp only at hx
        rcases List.mem_map.mp hx with ⟨p, _, rfl⟩
        exact hv p.content
    · rw [if_neg hg] at hx
      rcases List.mem_map.mp hx with ⟨p, _, rfl⟩
      exact hv p.content

/-- Witness for C7's amended statement with all-neutral oracles at one
concrete post. -/
theorem claim_C7_witness :
    BoundedVec (analyze_sentiment true (fun _ => some neutralVec)
      (fun _ => neutralVec) "great truck") ∧
    ∀ x ∈ analyze_posts_sentiment true (fun b => some (b.map (fun _ => neutralVec)))
        (fun _ => some neutralVec) (fun _ => neutralVec) [⟨"1", "great"⟩],
      BoundedVec x.sentiment := by
  have h := claim_C7_amended true (fun b => some (b.map (fun _ => neutralVec)))
    (fun _ => some neutralVec) (fun _ => neutralVec)
    (by
      intro b l hl s hsm
      cases hl
      rcases List.mem_map.mp hsm with ⟨_, _, rfl⟩
      exact neutralVec_bounded)
    (by intro t s hts; cases hts; exact neutralVec_bounded)
    (fun _ => neutralVec_bounded)
  refine ⟨?_, h.2 [⟨"1", "great"⟩]⟩
  · have h2 := h.1 "great truck"
    exact h2

/-! ## Claim theorems: the cluster-count formula (C9) -/

/-- C9 counterexample: at `n = 26`, the code's `int(sqrt(26 / 2))` truncates
`sqrt(13) = 3.60...` to 3, while the claimed `round(sqrt(26 / 2))` gives 4;
after clamping to the band from 3 to 10 and capping at `n`, the code passes
`k = 3` where the claim demands `k = 4`. -/
theorem claim_C9_counterexample :
    apiClusterCount 26 = 3 ∧ claimedClusterCount 26 = 4 ∧
      apiClusterCount 26 ≠ claimedClusterCount 26 := by
  have h13 : Nat.sqrt 13 = 3 := by
    have ha : 3 ≤ Nat.sqrt 13 := Nat.le_sqrt'.mpr (by norm_num)
    have hb : Nat.sqrt 13 < 4 := Nat.sqrt_lt'.mpr (by norm_num)
    omega
  have h52 : Nat.sqrt 52 = 7 := by
    have ha : 7 ≤ Nat.sqrt 52 := Nat.le_sqrt'.mpr (by norm_num)
    have hb : Nat.sqrt 52 < 8 := Nat.sqrt_lt'.mpr (by norm_num)
    omega
  have hc1 : apiClusterCount 26 = 3 := by
    unfold apiClusterCount
    norm_num [h13]
  have hc2 : claimedClusterCount 26 = 4 := by
    unfold claimedClusterCount
    norm_num [h52]
  exact ⟨hc1, hc2, by omega⟩

/-- C9 (amended): for every request of at least one post, the cluster count
passed to the clustering stage equals `clamp(floor(sqrt(n / 2)), 3, 10)` —
truncation, not rounding — further capped so that it never exceeds `n`;
the truncated root is characterised as the `s` with `s² ≤ n/2 < (s+1)²`. -/
theorem claim_C9_amended (n : Nat) (h : 1 ≤ n) :
    ∃ s, s * s ≤ n / 2 ∧ n / 2 < (s + 1) * (s + 1) ∧
      apiClusterCount n = min (max 3 (min 10 s)) n ∧
      apiClusterCount n ≤ n :=
  ⟨Nat.sqrt (n / 2), Nat.sqrt_le (n / 2), Nat.lt_succ_sqrt (n / 2), rfl,
    Nat.min_le_right _ n⟩

/-- Witness for C9's amended statement at `n = 26`. -/
theorem claim_C9_witness :
    (1 ≤ 26) ∧ ∃ s, s * s ≤ 26 / 2 ∧ 26 / 2 < (s + 1) * (s + 1) ∧
      apiClusterCount 26 = min (max 3 (min 10 s)) 26 ∧
      apiClusterCount 26 ≤ 26 :=
  ⟨by decide, claim_C9_amended 26 (by decide)⟩

/-! ## Lemmas: character classes of cleaned text -/

theorem pyLower_not_upper (c : Char) : pyLower c ∉ upperChars := by
  unfold pyLower
  split <;> try decide
  intro hmem
  simp only [upperChars] at hmem
  fin_cases hmem <;> simp_all

theorem lowAl_of_alnum_not_upper {c : Char} (h1 : isAlnumAscii c = true)
    (h2 : c ∉ upperChars) : c ∈ lowAlChars := by
  have hmem : c ∈ alnumChars := by
    unfold isAlnumAscii at h1
    exact of_decide_eq_true h1
  unfold alnumChars at hmem
  rw [List.mem_append, List.mem_append] at hmem
  unfold lowAlChars
  rw [List.mem_append]
  rcases hmem with (h | h) | h
  · exact Or.inl h
  · exact absurd h h2
  · exact Or.inr h

theorem lowAl_not_space {c : Char} (h : c ∈ lowAlChars) : pyIsSpace c = false := by
  fin_cases h <;> decide

theorem lowAl_alnum {c : Char} (h : c ∈ lowAlChars) : isAlnumAscii c = true := by
  fin_cases h <;> decide

theorem lowAl_ne_atSign {c : Char} (h : c ∈ lowAlChars) : c ≠ '@' := by
  intro hc
  subst hc
  exact absurd h (by decide)

theorem lowAl_ne_hash {c : Char} (h : c ∈ lowAlChars) : c ≠ '#' := by
  intro hc
  subst hc
  exact absurd h (by decide)

theorem pyLower_fixed_lowAl {c : Char} (h : c ∈ lowAlChars) : pyLower c = c := by
  fin_cases h <;> decide

/-! ## Lemmas: each cleaning scanner only keeps or spaces characters -/

theorem urlSkip_subset (s : List Char) : ∀ c ∈ urlSkip s, c ∈ s := by
  intro c hc
  unfold urlSkip at hc
  split at hc
  · exact List.drop_subset 4 s ((List.dropWhile_sublist _).subset hc)
  · exact List.drop_subset 3 s ((List.dropWhile_sublist _).subset hc)

theorem urlSubF_subset : ∀ (fuel : Nat) (s : List Char), ∀ c ∈ urlSubF fuel s, c ∈ s := by
  intro fuel
  induction fuel with
  | zero => intro s c hc; simpa only [urlSubF] using hc
  | succ fuel ih =>
    intro s c hc
    match s with
    | [] => exact hc
    | a :: as =>
      rw [urlSubF] at hc
      split at hc
      · exact urlSkip_subset (a :: as) c (ih _ c hc)
      · rcases List.mem_cons.mp hc with h | h
        · exact h ▸ List.mem_cons_self a as
        · exact List.mem_cons_of_mem a (ih as c h)

theorem mentionSubF_subset : ∀ (fuel : Nat) (s : List Char),
    ∀ c ∈ mentionSubF fuel s, c ∈ s := by
  intro fuel
  induction fuel with
  | zero => intro s c hc; simpa only [mentionSubF] using hc
  | succ fuel ih =>
    intro s c hc
    match s with
    | [] => exact hc
    | a :: as =>
      rw [mentionSubF] at hc
      split at hc
      · exact List.mem_cons_of_mem a ((List.dropWhile_sublist _).subset (ih _ c hc))
      · rcases List.mem_cons.mp hc with h | h
        · exact h ▸ List.mem_cons_self a as
        · exact List.mem_cons_of_mem a (ih as c h)

theorem hashtagSubF_subset : ∀ (fuel : Nat) (s : List Char),
    ∀ c ∈ hashtagSubF fuel s, c ∈ s := by
  intro fuel
  induction fuel with
  | zero => intro s c hc; simpa only [hashtagSubF] using hc
  | succ fuel ih =>
    intro s c hc
    match s with
    | [] => exact hc
    | a :: as =>
      rw [hashtagSubF] at hc
      split at hc
      · rw [List.mem_append] at hc
        rcases hc with h | h
        · exact List.mem_cons_of_mem a ((List.takeWhile_sublist _).subset h)
        · exact List.mem_cons_of_mem a ((List.dropWhile_sublist _).subset (ih _ c h))
      · rcases List.mem_cons.mp hc with h | h
        · exact h ▸ List.mem_cons_self a as
        · exact List.mem_cons_of_mem a (ih as c h)

theorem specialSub_mem (s : List Char) :
    ∀ c ∈ specialSub s, c = ' ' ∨ (c ∈ s ∧ (isAlnumAscii c || pyIsSpace c) = true) := by
  intro c hc
  unfold specialSub at hc
  rcases List.mem_map.mp hc with ⟨c₀, hc₀, heq⟩
  by_cases hk : (isAlnumAscii c₀ || pyIsSpace c₀) = true
  · rw [if_pos hk] at heq
    exact Or.inr ⟨heq ▸ hc₀, heq ▸ hk⟩
  · rw [if_neg hk] at heq
    exact Or.inl heq.symm

theorem wsCollapseF_mem : ∀ (fuel : Nat) (s : List Char), s.length < fuel →
    ∀ c ∈ wsCollapseF fuel s, c = ' ' ∨ (c ∈ s ∧ pyIsSpace c = false) := by
  intro fuel
  induction fuel with
  | zero =>
    intro s hlen
    exact absurd hlen (Nat.not_lt_zero _)
  | succ fuel ih =>
    intro s hlen c hc
    cases s with
    | nil =>
      simp only [wsCollapseF] at hc
      exact absurd hc (List.not_mem_nil c)
    | cons a as =>
      rw [wsCollapseF] at hc
      have hlen' : as.length < fuel := by
        simp only [List.length_cons] at hlen
        omega
      split at hc
      · rcases List.mem_cons.mp hc with h | h
        · exact Or.inl h
        · have hdrop : (as.dropWhile pyIsSpace).length < fuel :=
            Nat.lt_of_le_of_lt (List.dropWhile_sublist pyIsSpace).length_le hlen'
          rcases ih _ hdrop c h with h' | ⟨h1, h2⟩
          · exact Or.inl h'
          · exact Or.inr ⟨List.mem_cons_of_mem a ((List.dropWhile_sublist _).subset h1), h2⟩
      · rcases List.mem_cons.mp hc with h | h
        · subst h
          rename_i hns
          exact Or.inr ⟨List.mem_cons_self c as, by simpa using hns⟩
        · rcases ih as hlen' c h with h' | ⟨h1, h2⟩
          · exact Or.inl h'
          · exact Or.inr ⟨List.mem_cons_of_mem a h1, h2⟩

theorem pyStrip_subset (s : List Char) : ∀ c ∈ pyStrip s, c ∈ s := by
  intro c hc
  unfold pyStrip at hc
  rw [List.mem_reverse] at hc
  have h1 := (List.dropWhile_sublist (l := (s.dropWhile pyIsSpace).reverse) pyIsSpace).subset hc
  rw [List.mem_reverse] at h1
  exact (List.dropWhile_sublist pyIsSpace).subset h1

/-- Every character of a cleaned text is a space or a lowercase
alphanumeric character. -/
theorem cleanText_chars (s : List Char) :
    ∀ c ∈ clean_text s, c = ' ' ∨ c ∈ lowAlChars := by
  intro c hc
  unfold clean_text at hc
  by_cases hs : s = []
  · rw [if_pos hs] at hc
    exact absurd hc (List.not_mem_nil c)
  · rw [if_neg hs] at hc
    have h1 := pyStrip_subset _ c hc
    rcases wsCollapseF_mem _ _ (Nat.lt_succ_self _) c h1 with h | ⟨h2, hns⟩
    · exact Or.inl h
    · rcases specialSub_mem _ c h2 with h | ⟨h3, hcls⟩
      · exact Or.inl h
      · have h4 := hashtagSubF_subset _ _ c h3
        have h5 := mentionSubF_subset _ _ c h4
        have h6 := urlSubF_subset _ _ c h5
        rcases List.mem_map.mp h6 with ⟨c₀, _, heq⟩
        have hup : c ∉ upperChars := heq ▸ pyLower_not_upper c₀
        have halnum : isAlnumAscii c = true := by
          rcases Bool.or_eq_true_iff.mp hcls with h | h
          · exact h
          · rw [h] at hns; cases hns
        exact Or.inr (lowAl_of_alnum_not_upper halnum hup)

/-! ## Lemmas: whitespace splitting and joining -/

theorem splitWsStep_space {c : Char} (h : pyIsSpace c = true)
    (acc : List Char × List (List Char)) :
    splitWsStep c acc = ([], if acc.1.isEmpty then acc.2 else acc.1 :: acc.2) := by
  unfold splitWsStep
  rw [if_pos h]

theorem splitWsStep_nonspace {c : Char} (h : pyIsSpace c = false)
    (acc : List Char × List (List Char)) :
    splitWsStep c acc = (c :: acc.1, acc.2) := by
  unfold splitWsStep
  rw [if_neg (by simp [h])]

theorem splitWs_foldr_inv (Q : Char → Prop) :
    ∀ s : List Char, (∀ c ∈ s, pyIsSpace c = false → Q c) →
      SplitInv Q (s.foldr splitWsStep ([], [])) := by
  intro s
  induction s with
  | nil =>
    intro _
    exact ⟨fun c hc => absurd hc (List.not_mem_nil c),
      fun t ht => absurd ht (List.not_mem_nil t)⟩
  | cons a as ih =>
    intro hQ
    rw [List.foldr_cons]
    obtain ⟨h1, h2⟩ := ih (fun c hc hcf => hQ c (List.mem_cons_of_mem a hc) hcf)
    by_cases ha : pyIsSpace a = true
    · rw [splitWsStep_space ha]
      refine ⟨fun c hc => absurd hc (List.not_mem_nil c), ?_⟩
      by_cases he : (as.foldr splitWsStep ([], [])).1.isEmpty
      · rw [if_pos he]; exact h2
      · rw [if_neg he]
        intro t ht
        rcases List.mem_cons.mp ht with hh | hh
        · subst hh
          exact ⟨by simpa [List.isEmpty_iff] using he, h1⟩
        · exact h2 t hh
    · rw [splitWsStep_nonspace (by simpa using ha)]
      refine ⟨?_, h2⟩
      intro c hc
      rcases List.mem_cons.mp hc with hh | hh
      · subst hh
        exact ⟨hQ c (List.mem_cons_self _ _) (by simpa using ha), by simpa using ha⟩
      · exact h1 c hh

theorem splitWs_tokens (Q : Char → Prop) (s : List Char)
    (hQ : ∀ c ∈ s, pyIsSpace c = false → Q c) :
    ∀ t ∈ splitWs s, t ≠ [] ∧ ∀ c ∈ t, Q c ∧ pyIsSpace c = false := by
  intro t ht
  obtain ⟨h1, h2⟩ := splitWs_foldr_inv Q s hQ
  simp only [splitWs] at ht
  by_cases he : (s.foldr splitWsStep ([], [])).1.isEmpty
  · rw [if_pos he] at ht
    exact h2 t ht
  · rw [if_neg he] at ht
    rcases List.mem_cons.mp ht with hh | hh
    · subst hh
      exact ⟨by simpa [List.isEmpty_iff] using he, h1⟩
    · exact h2 t hh

theorem foldr_token_nonspace :
    ∀ (t : List Char) (st : List Char × List (List Char)),
      (∀ c ∈ t, pyIsSpace c = false) →
      t.foldr splitWsStep st = (t ++ st.1, st.2) := by
  intro t
  induction t with
  | nil => intro st _; rfl
  | cons a as ih =>
    intro st hns
    rw [List.foldr_cons, ih st (fun c hc => hns c (List.mem_cons_of_mem a hc)),
      splitWsStep_nonspace (hns a (List.mem_cons_self a as))]
    rfl

theorem splitWs_joinTokens :
    ∀ ts : List (List Char),
      (∀ t ∈ ts, t ≠ [] ∧ ∀ c ∈ t, pyIsSpace c = false) →
      splitWs (joinTokens ts) = ts := by
  intro ts
  induction ts with
  | nil => intro _; rfl
  | cons t ts ih =>
    intro hts
    obtain ⟨htne, htns⟩ := hts t (List.mem_cons_self t ts)
    cases ts with
    | nil =>
      show splitWs (joinTokens [t]) = [t]
      have hj : joinTokens [t] = t := rfl
      rw [hj]
      simp only [splitWs]
      rw [foldr_token_nonspace t ([], []) htns]
      simp only [List.append_nil]
      rw [if_neg (by simpa [List.isEmpty_iff] using htne)]
    | cons u us =>
      have hj : joinTokens (t :: u :: us) = t ++ ' ' :: joinTokens (u :: us) := rfl
      simp only [splitWs, hj]
      rw [List.foldr_append, List.foldr_cons,
        show splitWsStep ' ' ((joinTokens (u :: us)).foldr splitWsStep ([], [])) =
          ([], splitWs (joinTokens (u :: us))) from by
            rw [splitWsStep_space (by decide)]
            rfl,
        foldr_token_nonspace t _ htns]
      simp only [List.append_nil]
      rw [if_neg (by simpa [List.isEmpty_iff] using htne)]
      rw [ih (fun v hv => hts v (List.mem_cons_of_mem t hv))]

theorem mem_joinTokens :
    ∀ (ts : List (List Char)) (c : Char), c ∈ joinTokens ts →
      c = ' ' ∨ ∃ t ∈ ts, c ∈ t := by
  intro ts
  induction ts with
  | nil => intro c hc; exact absurd hc (List.not_mem_nil c)
  | cons t ts ih =>
    intro c hc
    cases ts with
    | nil =>
      exact Or.inr ⟨t, List.mem_cons_self t [], hc⟩
    | cons u us =>
      have hj : joinTokens (t :: u :: us) = t ++ ' ' :: joinTokens (u :: us) := rfl
      rw [hj, List.mem_append, List.mem_cons] at hc
      rcases hc with hc | hc | hc
      · exact Or.inr ⟨t, List.mem_cons_self t _, hc⟩
      · exact Or.inl hc
      · rcases ih c hc with h | ⟨v, hv, hcv⟩
        · exact Or.inl h
        · exact Or.inr ⟨v, List.mem_cons_of_mem t hv, hcv⟩

theorem joinTokens_ne_nil (ts : List (List Char)) (hne : ts ≠ [])
    (hts : ∀ t ∈ ts, t ≠ []) : joinTokens ts ≠ [] := by
  cases ts with
  | nil => exact absurd rfl hne
  | cons t ts =>
    cases ts with
    | nil => exact hts t (List.mem_cons_self t [])
    | cons u us =>
      have hj : joinTokens (t :: u :: us) = t ++ ' ' :: joinTokens (u :: us) := rfl
      rw [hj]
      intro hcon
      rcases List.append_eq_nil.mp hcon with ⟨_, h2⟩
      cases h2

/-! ## Lemmas: the cleaning steps fix a well-spaced joined token string -/

theorem dropWhile_eq_self_of_head {s : List Char} (h : HeadNotSpace s) :
    s.dropWhile pyIsSpace = s := by
  cases s with
  | nil => rfl
  | cons a as =>
    simp only [HeadNotSpace] at h
    rw [List.dropWhile_cons, if_neg (by simp [h])]

theorem wsCollapseF_id : ∀ (fuel : Nat) (s : List Char), s.length < fuel →
    SingleSpaced s → wsCollapseF fuel s = s := by
  intro fuel
  induction fuel with
  | zero => intro s h; exact absurd h (Nat.not_lt_zero _)
  | succ fuel ih =>
    intro s hlen hss
    cases s with
    | nil => simp only [wsCollapseF]
    | cons a as =>
      simp only [SingleSpaced] at hss
      obtain ⟨hsp, hss'⟩ := hss
      have hlen' : as.length < fuel := by
        simp only [List.length_cons] at hlen
        omega
      rw [wsCollapseF]
      by_cases ha : pyIsSpace a = true
      · rw [if_pos ha]
        obtain ⟨ha', hhead⟩ := hsp ha
        rw [dropWhile_eq_self_of_head hhead, ih as hlen' hss', ha']
      · rw [if_neg ha, ih as hlen' hss']

theorem pyStrip_id (s : List Char) (h1 : HeadNotSpace s)
    (h2 : HeadNotSpace s.reverse) : pyStrip s = s := by
  unfold pyStrip
  rw [dropWhile_eq_self_of_head h1, dropWhile_eq_self_of_head h2,
    List.reverse_reverse]

theorem headNotSpace_of_all {s : List Char}
    (h : ∀ c ∈ s, pyIsSpace c = false) : HeadNotSpace s := by
  cases s with
  | nil => trivial
  | cons a as =>
    simp only [HeadNotSpace]
    exact h a (List.mem_cons_self a as)

theorem headNotSpace_append {x : List Char} (y : List Char) (hx : x ≠ [])
    (h : HeadNotSpace x) : HeadNotSpace (x ++ y) := by
  cases x with
  | nil => exact absurd rfl hx
  | cons a as => exact h

theorem singleSpaced_of_nonspace :
    ∀ t : List Char, (∀ c ∈ t, pyIsSpace c = false) → SingleSpaced t := by
  intro t
  induction t with
  | nil => intro _; trivial
  | cons a as ih =>
    intro h
    refine ⟨?_, ih (fun c hc => h c (List.mem_cons_of_mem a hc))⟩
    intro ha
    rw [h a (List.mem_cons_self a as)] at ha
    cases ha

theorem singleSpaced_append (t rest : List Char)
    (ht : ∀ c ∈ t, pyIsSpace c = false) (hrest : SingleSpaced rest) :
    SingleSpaced (t ++ rest) := by
  induction t with
  | nil => exact hrest
  | cons a as ih =>
    refine ⟨?_, ih (fun c hc => ht c (List.mem_cons_of_mem a hc))⟩
    intro ha
    rw [ht a (List.mem_cons_self a as)] at ha
    cases ha

/-- A joined token list is single-spaced, starts and (after reversal) ends
with a non-space character, whenever the tokens are non-empty and space-free. -/
theorem joined_good :
    ∀ ts : List (List Char),
      (∀ t ∈ ts, t ≠ [] ∧ ∀ c ∈ t, pyIsSpace c = false) →
      SingleSpaced (joinTokens ts) ∧ HeadNotSpace (joinTokens ts) ∧
        HeadNotSpace (joinTokens ts).reverse := by
  intro ts
  induction ts with
  | nil => exact fun _ => ⟨trivial, trivial, trivial⟩
  | cons t ts ih =>
    intro hts
    obtain ⟨htne, htns⟩ := hts t (List.mem_cons_self t ts)
    cases ts with
    | nil =>
      have hj : joinTokens [t] = t := rfl
      rw [hj]
      refine ⟨singleSpaced_of_nonspace t htns, headNotSpace_of_all htns, ?_⟩
      exact headNotSpace_of_all (fun c hc => htns c (List.mem_reverse.mp hc))
    | cons u us =>
      obtain ⟨hss', hhd', hrev'⟩ := ih (fun v hv => hts v (List.mem_cons_of_mem t hv))
      have hj : joinTokens (t :: u :: us) = t ++ ' ' :: joinTokens (u :: us) := rfl
      have hjne : joinTokens (u :: us) ≠ [] :=
        joinTokens_ne_nil (u :: us) (by simp)
          (fun v hv => (hts v (List.mem_cons_of_mem t hv)).1)
      rw [hj]
      refine ⟨?_, ?_, ?_⟩
      · refine singleSpaced_append t _ htns ?_
        exact ⟨fun _ => ⟨rfl, hhd'⟩, hss'⟩
      · exact headNotSpace_append _ htne (headNotSpace_of_all htns)
      · rw [List.reverse_append, List.reverse_cons]
        refine headNotSpace_append _ ?_ ?_
        · intro hcon
          simp at hcon
        · refine headNotSpace_append _ ?_ hrev'
          intro hcon
          exact hjne (List.reverse_eq_nil_iff.mp hcon)

/-! ## Lemmas: identity of the second cleaning pass -/

theorem mapPyLower_id (s : List Char)
    (h : ∀ c ∈ s, c = ' ' ∨ c ∈ lowAlChars) : s.map pyLower = s := by
  refine (List.map_congr_left ?_).trans (List.map_id s)
  intro c hc
  rcases h c hc with h' | h'
  · subst h'; decide
  · exact pyLower_fixed_lowAl h'

theorem mentionSubF_id : ∀ (fuel : Nat) (s : List Char), s.length < fuel →
    (∀ c ∈ s, c ≠ '@') → mentionSubF fuel s = s := by
  intro fuel
  induction fuel with
  | zero => intro s h; exact absurd h (Nat.not_lt_zero _)
  | succ fuel ih =>
    intro s hlen hne
    cases s with
    | nil => simp only [mentionSubF]
    | cons a as =>
      have hlen' : as.length < fuel := by
        simp only [List.length_cons] at hlen
        omega
      rw [mentionSubF,
        if_neg (by simp [hne a (List.mem_cons_self a as)]),
        ih as hlen' (fun c hc => hne c (List.mem_cons_of_mem a hc))]

theorem hashtagSubF_id : ∀ (fuel : Nat) (s : List Char), s.length < fuel →
    (∀ c ∈ s, c ≠ '#') → hashtagSubF fuel s = s := by
  intro fuel
  induction fuel with
  | zero => intro s h; exact absurd h (Nat.not_lt_zero _)
  | succ fuel ih =>
    intro s hlen hne
    cases s with
    | nil => simp only [hashtagSubF]
    | cons a as =>
      have hlen' : as.length < fuel := by
        simp only [List.length_cons] at hlen
        omega
      rw [hashtagSubF,
        if_neg (by simp [hne a (List.mem_cons_self a as)]),
        ih as hlen' (fun c hc => hne c (List.mem_cons_of_mem a hc))]

theorem specialSub_id (s : List Char)
    (h : ∀ c ∈ s, (isAlnumAscii c || pyIsSpace c) = true) : specialSub s = s := by
  unfold specialSub
  refine (List.map_congr_left ?_).trans (List.map_id s)
  intro c hc
  rw [if_pos (h c hc)]
  rfl

/-! ## Claim theorems: normalization idempotence (C6) -/

/-- C6 counterexample: hashtag stripping can splice together a URL marker —
`htt#px` normalizes to the single token `httpx`, but re-normalizing that
token sequence lets the URL rule `http\S+` delete it, so
`normalize(normalize(text))` differs from `normalize(text)`.
(The stop-word set is instantiated with the repository's own
`DOMAIN_STOP_WORDS`; the full set also unions the NLTK English corpus, which
likewise contains no token `httpx`, so the divergence carries over.) -/
theorem claim_C6_counterexample :
    normalize DOMAIN_STOP_WORDS "htt#px".data = ["httpx".data] ∧
    normalize DOMAIN_STOP_WORDS
      (joinTokens (normalize DOMAIN_STOP_WORDS "htt#px".data)) = [] ∧
    ([] : List (List Char)) ≠ ["httpx".data] := by
  refine ⟨by decide, by decide, by decide⟩

/-- C6 (amended): re-applying the pipeline to the space-joined token sequence
of a first application returns exactly the same token sequence for every
stop-word set and every text whose joined first-pass tokens are left
unchanged by the URL-stripping rule (the counterexample shows the hypothesis
is necessary: hashtag stripping can splice a URL marker into a token, which
the second pass's URL rule then deletes). -/
theorem claim_C6_amended (sw : List (List Char)) (text : List Char)
    (h : urlSub (joinTokens (normalize sw text)) = joinTokens (normalize sw text)) :
    normalize sw (joinTokens (normalize sw text)) = normalize sw text := by
  have htok : ∀ t ∈ normalize sw text,
      t ≠ [] ∧ ∀ c ∈ t, (c ∈ lowAlChars) ∧ pyIsSpace c = false := by
    intro t ht
    unfold normalize remove_stop_words at ht
    have ht' := List.mem_of_mem_filter ht
    unfold tokenize at ht'
    by_cases hcx : clean_text text = []
    · rw [if_pos hcx] at ht'
      exact absurd ht' (List.not_mem_nil t)
    · rw [if_neg hcx] at ht'
      refine splitWs_tokens (fun c => c ∈ lowAlChars) (clean_text text) ?_ t ht'
      intro c hc hns
      rcases cleanText_chars text c hc with h' | h'
      · subst h'
        exact absurd hns (by decide)
      · exact h'
  have hfilt : ∀ t ∈ normalize sw text,
      (decide (t ∉ sw) && decide (t.length > 2)) = true := by
    intro t ht
    unfold normalize remove_stop_words at ht
    simpa using List.of_mem_filter ht
  by_cases hempty : normalize sw text = []
  · rw [hempty]
    show normalize sw (joinTokens []) = []
    rfl
  · have htne : ∀ t ∈ normalize sw text, t ≠ [] := fun t ht => (htok t ht).1
    have htns : ∀ t ∈ normalize sw text, t ≠ [] ∧ ∀ c ∈ t, pyIsSpace c = false :=
      fun t ht => ⟨(htok t ht).1, fun c hc => ((htok t ht).2 c hc).2⟩
    have hjne : joinTokens (normalize sw text) ≠ [] :=
      joinTokens_ne_nil _ hempty htne
    have hjchars : ∀ c ∈ joinTokens (normalize sw text),
        c = ' ' ∨ c ∈ lowAlChars := by
      intro c hc
      rcases mem_joinTokens _ c hc with h' | ⟨t, ht, hct⟩
      · exact Or.inl h'
      · exact Or.inr ((htok t ht).2 c hct).1
    obtain ⟨hss, hhd, hrev⟩ := joined_good _ htns
    have hclean : clean_text (joinTokens (normalize sw text)) =
        joinTokens (normalize sw text) := by
      unfold clean_text
      rw [if_neg hjne, mapPyLower_id _ hjchars, h]
      unfold mentionSub hashtagSub wsCollapse
      rw [mentionSubF_id _ _ (Nat.lt_succ_self _) (fun c hc => by
          rcases hjchars c hc with h' | h'
          · subst h'; decide
          · exact lowAl_ne_atSign h'),
        hashtagSubF_id _ _ (Nat.lt_succ_self _) (fun c hc => by
          rcases hjchars c hc with h' | h'
          · subst h'; decide
          · exact lowAl_ne_hash h'),
        specialSub_id _ (fun c hc => by
          rcases hjchars c hc with h' | h'
          · subst h'; decide
          · simp [lowAl_alnum h']),
        wsCollapseF_id _ _ (Nat.lt_succ_self _) hss,
        pyStrip_id _ hhd hrev]
    have hgoal : normalize sw (joinTokens (normalize sw text)) =
        remove_stop_words sw (tokenize (clean_text (joinTokens (normalize sw text)))) := rfl
    rw [hgoal, hclean]
    have htk : tokenize (joinTokens (normalize sw text)) =
        splitWs (joinTokens (normalize sw text)) := by
      unfold tokenize
      rw [if_neg hjne]
    rw [htk, splitWs_joinTokens _ htns]
    exact List.filter_eq_self.mpr (fun t ht => by simpa using hfilt t ht)

/-- Witness for C6's amended statement at a concrete text whose tokens carry
no URL remnant. -/
theorem claim_C6_witness :
    normalize DOMAIN_STOP_WORDS
        (joinTokens (normalize DOMAIN_STOP_WORDS "Great #quality truck!".data)) =
      normalize DOMAIN_STOP_WORDS "Great #quality truck!".data :=
  claim_C6_amended DOMAIN_STOP_WORDS "Great #quality truck!".data (by decide)

end BrandSA
